import Mathlib

/-!
# Verification of the r2iac core plan/apply engine

This file gives a shallow embedding of `crates/core/src/lib.rs`:

* the dependency-graph construction and the topological scheduler of
  `plan_all` (the scheduler is `petgraph::algo::toposort`, a DFS that
  records nodes in finishing order onto a finish stack and reverses it;
  it reports an error on self-loops at discovery time and, when newly
  finishing a node, on any successor that is not yet finished);
* the plan loop of `plan_all` (read, then plan, then append the pair);
* the apply loop of `apply_all` (look up the handle by identifier with
  an unchecked unwrap, then apply).

Machine integers do not occur in the modelled code; `read`, `plan` and
`apply` are modelled as the deterministic outcome of awaiting the
corresponding call, and an event trace records which calls the engine
performs and with which arguments.  A `panicked` outcome models a Rust
panic (the `unwrap` on a failed lookup).
-/

set_option autoImplicit false

/-- DFS state of the scheduler: discovery list (insertion order),
finish list (finishing order, also the finish stack), and the explicit
work stack (head = top). -/
structure St (n : Nat) where
  disc : List (Fin n)
  fin : List (Fin n)
  stack : List (Fin n)
deriving DecidableEq

/-- Inner DFS loop of `petgraph::algo::toposort` (`while let Some(&nx) =
dfs.stack.last()`), with explicit fuel; `none` means the fuel ran out,
which `innerLoop_some` below rules out for the fuel the scheduler uses.
On top `nx`: if undiscovered, error on a self-loop, else mark discovered
and push the undiscovered neighbours (iteration order, so the last one
ends topmost); if discovered, pop, and when newly finishing check that
every successor is finished, else error. -/
def innerLoop {n : Nat} (adj : Fin n → List (Fin n)) :
    Nat → St n → Option (Except (Fin n) (St n))
  | 0, _ => none
  | fuel + 1, σ =>
    match σ.stack with
    | [] => some (.ok σ)
    | nx :: rest =>
      if nx ∈ σ.disc then
        if nx ∈ σ.fin then
          innerLoop adj fuel ⟨σ.disc, σ.fin, rest⟩
        else
          if ∀ s ∈ adj nx, s ∈ σ.fin ++ [nx] then
            innerLoop adj fuel ⟨σ.disc, σ.fin ++ [nx], rest⟩
          else
            some (.error nx)
      else
        if nx ∈ adj nx then
          some (.error nx)
        else
          innerLoop adj fuel
            ⟨σ.disc ++ [nx], σ.fin,
             ((adj nx).filter (fun s => s ∉ σ.disc ++ [nx])).reverse ++ nx :: rest⟩

/-- Outer loop of `toposort`: scan node identifiers in index order,
skip discovered ones, otherwise push the node and run the DFS. -/
def outerLoop {n : Nat} (adj : Fin n → List (Fin n)) (fuel : Nat) :
    List (Fin n) → St n → Option (Except (Fin n) (St n))
  | [], σ => some (.ok σ)
  | i :: rest, σ =>
    if i ∈ σ.disc then outerLoop adj fuel rest σ
    else
      match innerLoop adj fuel ⟨σ.disc, σ.fin, i :: σ.stack⟩ with
      | none => none
      | some (.error c) => some (.error c)
      | some (.ok σ') => outerLoop adj fuel rest σ'

/-- Fuel that always suffices for one inner DFS run (proved below). -/
def topoFuel (n : Nat) (adj : Fin n → List (Fin n)) : Nat :=
  2 + ∑ v : Fin n, (1 + (adj v).length)

/-- `petgraph::algo::toposort`: reverse finishing order on success,
an error on a cycle.  `plan_all` discards the error payload
(`map_err(|_| EngineError::Cycle)`), so the payload is dropped here. -/
def toposort (n : Nat) (adj : Fin n → List (Fin n)) :
    Except Unit (List (Fin n)) :=
  match outerLoop adj (topoFuel n adj) (List.finRange n) ⟨[], [], []⟩ with
  | some (.ok σ) => .ok σ.fin.reverse
  | some (.error _) => .error ()
  | none => .error ()

/-- The edge relation of a graph given by adjacency lists: `a ⟶ b`
iff `b` is a neighbour of `a` (petgraph edge from `a` to `b`). -/
def GStep {n : Nat} (adj : Fin n → List (Fin n)) (a b : Fin n) : Prop :=
  b ∈ adj a

/-- The graph has a (non-empty) cycle. -/
def GCyclic {n : Nat} (adj : Fin n → List (Fin n)) : Prop :=
  ∃ v, Relation.TransGen (GStep adj) v v

/-! ## The resource data model (`crates/core/src/lib.rs`, lines 8–32) -/

/-- `enum Op { Create(Desired), Update{from, to}, Delete(Current), Noop }`.
`χ` stands for `Current` and `δ` for `Desired` (opaque JSON documents). -/
inductive Op (χ δ : Type) where
  | create : δ → Op χ δ
  | update : χ → δ → Op χ δ
  | delete : χ → Op χ δ
  | noop : Op χ δ
deriving DecidableEq

/-- A `Box<dyn Resource>`: identity, declared dependency identifiers
(the iteration of the `BTreeSet`), and the awaited outcomes of `read`,
`plan` and `apply`.  `ε` models `anyhow::Error`. -/
structure Res (χ δ ε : Type) where
  id : String
  deps : List String
  read : Except ε (Option χ)
  plan : Option χ → Except ε (Op χ δ)
  apply : Op χ δ → Except ε Unit

/-- Errors out of `plan_all`: the engine's own `EngineError::Cycle`, or a
resource's `read`/`plan` failure propagated by `?`. -/
inductive PlanErr (ε : Type) where
  | cycle : PlanErr ε
  | res : ε → PlanErr ε
deriving DecidableEq

/-- Outcome of a run: normal return, propagated error, or a Rust panic
(an `unwrap` that fails). -/
inductive RunResult (ε α : Type) where
  | ok : α → RunResult ε α
  | err : ε → RunResult ε α
  | panicked : RunResult ε α
deriving DecidableEq

/-- Events the engine performs on resources: a `read()` call on the
resource with the given identifier, and a `plan(cur)` call with the
given argument. -/
inductive Ev (χ : Type) where
  | rd : String → Ev χ
  | pl : String → Option χ → Ev χ
deriving DecidableEq

variable {χ δ ε : Type}

/-! ## Graph construction in `plan_all` (lines 36–51) -/

/-- The node weights, one node per resource in input order. -/
def idsOf (rs : List (Res χ δ ε)) : List String := rs.map Res.id

/-- The final contents of `id_to_ix`: a `HashMap` built by insertion in
input order, so an identifier maps to the **last** index carrying it. -/
def idIndex (l : List String) (d : String) : Option Nat :=
  (l.enum.reverse.find? (fun p => p.2 == d)).map Prod.fst

/-- The edge list in insertion order: for each resource (input order),
for each declared dependency (declaration order), if the dependency
identifier is known, an edge from the dependency's node to the
dependent's node; unknown identifiers are dropped. -/
def edgeList (rs : List (Res χ δ ε)) : List (Nat × Nat) :=
  rs.enum.flatMap (fun p =>
    match idIndex (idsOf rs) p.2.id with
    | some t => p.2.deps.filterMap (fun d => (idIndex (idsOf rs) d).map (fun f => (f, t)))
    | none => [])

/-- Adjacency of the built graph; petgraph's `neighbors` yields the
outgoing edges most-recently-added first, hence the `reverse`.  The
bound check is vacuous (all endpoints are node indices). -/
def adjOf (rs : List (Res χ δ ε)) : Fin rs.length → List (Fin rs.length) :=
  fun v =>
    (((edgeList rs).filter (fun e => e.1 == v.val)).map Prod.snd).reverse.filterMap
      (fun t => if h : t < rs.length then some ⟨t, h⟩ else none)

/-- The scheduling stage of `plan_all` (line 52). -/
def schedule (rs : List (Res χ δ ε)) : Except Unit (List (Fin rs.length)) :=
  toposort rs.length (adjOf rs)

/-- The known-only dependency graph of the collection has a cycle. -/
def CyclicDeps (rs : List (Res χ δ ε)) : Prop := GCyclic (adjOf rs)

/-- `resources.iter().find(|x| x.id().0 == id)`: first handle whose
identifier matches. -/
def findRes (rs : List (Res χ δ ε)) (id : String) : Option (Res χ δ ε) :=
  rs.find? (fun r => r.id == id)

/-- The node weight at a node index. -/
def nmAt (rs : List (Res χ δ ε)) (ix : Fin rs.length) : String := (rs.get ix).id

/-! ## The plan loop (lines 54–62) and `plan_all` -/

/-- The loop over the ordered node indices: look the handle up by node
weight (`unwrap`: a failed lookup is a panic), `read`, `plan` on the
observed state, push `(id, op)`.  The second component records the
performed read/plan calls in order. -/
def planLoop (rs : List (Res χ δ ε)) :
    List (Fin rs.length) → List (String × Op χ δ) → List (Ev χ) →
    RunResult (PlanErr ε) (List (String × Op χ δ)) × List (Ev χ)
  | [], out, tr => (.ok out, tr)
  | ix :: rest, out, tr =>
    match findRes rs (nmAt rs ix) with
    | none => (.panicked, tr)
    | some r =>
      match r.read with
      | .error e => (.err (.res e), tr ++ [.rd (nmAt rs ix)])
      | .ok c =>
        match r.plan c with
        | .error e => (.err (.res e), tr ++ [.rd (nmAt rs ix), .pl (nmAt rs ix) c])
        | .ok op =>
          planLoop rs rest (out ++ [(nmAt rs ix, op)])
            (tr ++ [.rd (nmAt rs ix), .pl (nmAt rs ix) c])

/-- `plan_all` (lines 34–63): build the graph, topologically sort it
(`EngineError::Cycle` on failure, before touching any resource), then
run the plan loop. -/
def planAll (rs : List (Res χ δ ε)) :
    RunResult (PlanErr ε) (List (String × Op χ δ)) × List (Ev χ) :=
  match schedule rs with
  | .error _ => (.err .cycle, [])
  | .ok ord => planLoop rs ord [] []

/-! ## `apply_all` (lines 65–71) -/

/-- The apply loop: for each plan entry in order, look the handle up by
identifier (`unwrap`: a failed lookup is a panic) and `apply` the stored
operation, stopping at the first error.  The second component records
the identifiers on which `apply` was invoked, in order. -/
def applyLoop (rs : List (Res χ δ ε)) :
    List (String × Op χ δ) → List String → RunResult ε Unit × List String
  | [], tr => (.ok (), tr)
  | (id, op) :: rest, tr =>
    match findRes rs id with
    | none => (.panicked, tr)
    | some r =>
      match r.apply op with
      | .error e => (.err e, tr ++ [id])
      | .ok _ => applyLoop rs rest (tr ++ [id])

/-- `apply_all`. -/
def applyAll (rs : List (Res χ δ ε)) (plan : List (String × Op χ δ)) :
    RunResult ε Unit × List String :=
  applyLoop rs plan []

/-! ## Invariants of the DFS scheduler

The proofs below follow the classic argument for DFS-based topological
sorting.  A node is *gray* when discovered but not yet finished.  The
invariant records that the gray nodes, in discovery order, form a chain
of edges, and that the stack decomposes into blocks pushed by each gray
node. -/

/-- The gray nodes in discovery order. -/
def Grays {n : Nat} (σ : St n) : List (Fin n) :=
  σ.disc.filter (fun v => v ∉ σ.fin)

/-- Every node of the list appears after all its successors (the finish
list of the DFS has this shape). -/
def FinSorted {n : Nat} (adj : Fin n → List (Fin n)) (l : List (Fin n)) : Prop :=
  ∀ l₁ a l₂, l = l₁ ++ a :: l₂ → ∀ b ∈ adj a, b ∈ l₁

/-- Every node of the list appears before all its successors (shape of
the scheduler's output, the reversed finish list). -/
def TopoSorted {n : Nat} (adj : Fin n → List (Fin n)) (l : List (Fin n)) : Prop :=
  ∀ l₁ a l₂, l = l₁ ++ a :: l₂ → ∀ b ∈ adj a, b ∈ l₂

/-- `Decomp adj disc fin above s gr`: the stack `s` decomposes along the
reversed gray list `gr` (most recent gray first) into blocks, the block
over each gray `g` holding only successors of `g`; every successor of a
gray `g` is discovered or still in `g`'s block; and any gray node stored
inside a block was discovered later than the block's owner, hence lies
in `above`. -/
def Decomp {n : Nat} (adj : Fin n → List (Fin n)) (disc fin : List (Fin n)) :
    List (Fin n) → List (Fin n) → List (Fin n) → Prop
  | above, s, [] => ∀ x ∈ s, x ∈ disc → x ∉ fin → x ∈ above
  | above, s, g :: gs =>
    ∃ B t, s = B ++ g :: t ∧ (∀ x ∈ B, x ∈ adj g) ∧
      (∀ x ∈ adj g, x ∈ disc ∨ x ∈ B) ∧
      (∀ x ∈ B, x ∈ disc → x ∉ fin → x ∈ above) ∧
      Decomp adj disc fin (g :: above) t gs

/-- The DFS invariant. -/
structure DfsInv {n : Nat} (adj : Fin n → List (Fin n)) (σ : St n) : Prop where
  ndDisc : σ.disc.Nodup
  ndFin : σ.fin.Nodup
  finSubDisc : ∀ x ∈ σ.fin, x ∈ σ.disc
  finSorted : FinSorted adj σ.fin
  chain : (Grays σ).Chain' (fun a b => b ∈ adj a)
  noself : ∀ g ∈ Grays σ, g ∉ adj g
  decomp : Decomp adj σ.disc σ.fin [] σ.stack (Grays σ).reverse

/-- Strictly decreasing measure of the DFS loop. -/
def potential {n : Nat} (adj : Fin n → List (Fin n)) (σ : St n) : Nat :=
  σ.stack.length + ∑ v ∈ Finset.univ \ σ.disc.toFinset, (1 + (adj v).length)


/-- What the plan loop appends for a node when its lookup, read and
plan all succeed (`none` when any of them does not). -/
def entryAt (rs : List (Res χ δ ε)) (ix : Fin rs.length) : Option (String × Op χ δ) :=
  match findRes rs (nmAt rs ix) with
  | none => none
  | some r =>
    match r.read with
    | .error _ => none
    | .ok c =>
      match r.plan c with
      | .error _ => none
      | .ok op => some (nmAt rs ix, op)

/-- The read/plan events the plan loop performs when visiting a node. -/
def evsAt (rs : List (Res χ δ ε)) (ix : Fin rs.length) : List (Ev χ) :=
  match findRes rs (nmAt rs ix) with
  | none => []
  | some r =>
    match r.read with
    | .error _ => [.rd (nmAt rs ix)]
    | .ok c => [.rd (nmAt rs ix), .pl (nmAt rs ix) c]

/-- The identifiers on which `read()` was invoked, in call order. -/
def readIds (tr : List (Ev χ)) : List String :=
  tr.filterMap (fun e => match e with | .rd i => some i | .pl _ _ => none)

/-- The plan loop fails at this node with underlying error `e` (its
`read`, or its `plan` on the state `read` returned, fails). -/
def FailEntry (rs : List (Res χ δ ε)) (ix : Fin rs.length) (e : ε) : Prop :=
  ∃ r, findRes rs (nmAt rs ix) = some r ∧
    (r.read = .error e ∨ ∃ c, r.read = .ok c ∧ r.plan c = .error e)

/-- The apply loop succeeds on this plan entry: the handle is found and
its `apply` returns `Ok`. -/
def OkApply (rs : List (Res χ δ ε)) (p : String × Op χ δ) : Prop :=
  ∃ r, findRes rs p.1 = some r ∧ r.apply p.2 = .ok ()

/-- The same collection with every dependency set pre-filtered to the
identifiers present in the collection. -/
def restrictKnown (rs : List (Res χ δ ε)) : List (Res χ δ ε) :=
  rs.map (fun r => ⟨r.id, r.deps.filter (fun d => d ∈ idsOf rs), r.read, r.plan, r.apply⟩)

/-- Position of the first pair carrying the identifier. -/
def pairPos (out : List (String × Op χ δ)) (id : String) : Nat :=
  out.findIdx (fun p => p.1 == id)

/-! ### Concrete inputs used to instantiate the theorems -/

/-- A resource whose `read` observes nothing and whose `plan` and
`apply` always succeed. -/
def wRes (i : String) (ds : List String) : Res Nat Nat Nat :=
  ⟨i, ds, .ok none, fun _ => .ok .noop, fun _ => .ok ()⟩

/-- A resource whose `read` fails with the given error. -/
def wResReadFail (i : String) (e : Nat) : Res Nat Nat Nat :=
  ⟨i, [], .error e, fun _ => .ok .noop, fun _ => .ok ()⟩

/-- A resource whose `apply` fails with the given error. -/
def wResApplyFail (i : String) (e : Nat) : Res Nat Nat Nat :=
  ⟨i, [], .ok none, fun _ => .ok .noop, fun _ => .error e⟩

def rsPair : List (Res Nat Nat Nat) := [wRes "a" [], wRes "b" []]

def rsCycle : List (Res Nat Nat Nat) := [wRes "a" ["b"], wRes "b" ["a"]]

def rsGhost : List (Res Nat Nat Nat) := [wRes "a" ["ghost"]]

def rsReadFail : List (Res Nat Nat Nat) := [wResReadFail "a" 5]

def rsApplyFailA : List (Res Nat Nat Nat) := [wResApplyFail "a" 7]

def rsApplyFailB : List (Res Nat Nat Nat) := [wResApplyFail "b" 7]

theorem mem_grays {n : Nat} {σ : St n} {x : Fin n} :
    x ∈ Grays σ ↔ x ∈ σ.disc ∧ x ∉ σ.fin := by
  simp [Grays]

theorem Decomp.spine_mem {n : Nat} {adj : Fin n → List (Fin n)} {disc fin : List (Fin n)} :
    ∀ {gr above s}, Decomp adj disc fin above s gr → ∀ g ∈ gr, g ∈ s := by
  intro gr
  induction gr with
  | nil => intro above s _ g hg; exact absurd hg (List.not_mem_nil g)
  | cons g' gs ih =>
    rintro above s ⟨B, t, rfl, -, -, -, hsub⟩ g hg
    rcases List.mem_cons.mp hg with rfl | hg
    · exact List.mem_append_right B (List.mem_cons_self g _)
    · exact List.mem_append_right B (List.mem_cons_of_mem g' (ih hsub g hg))

/-- Monotonicity of the stack decomposition under growing the discovery
and finish lists, provided each newly discovered node is accounted for
in the new `above` (or is finished), and old `above` members stay there
unless finished. -/
theorem Decomp.mono {n : Nat} {adj : Fin n → List (Fin n)}
    {disc fin disc' fin' : List (Fin n)} :
    ∀ {gr above above' s}, Decomp adj disc fin above s gr →
    (∀ y ∈ disc, y ∈ disc') → (∀ y ∈ fin, y ∈ fin') →
    (∀ y ∈ disc', y ∈ disc ∨ y ∈ above' ∨ y ∈ fin') →
    (∀ y ∈ above, y ∉ fin' → y ∈ above') →
    Decomp adj disc' fin' above' s gr := by
  intro gr
  induction gr with
  | nil =>
    intro above above' s h hd hf hnew ha x hx hxd hxf
    rcases hnew x hxd with hxd0 | hx' | hx'
    · exact ha x (h x hx hxd0 (fun hc => hxf (hf x hc))) hxf
    · exact hx'
    · exact absurd hx' hxf
  | cons g gs ih =>
    rintro above above' s ⟨B, t, rfl, hB, hadj, hgray, hsub⟩ hd hf hnew ha
    refine ⟨B, t, rfl, hB, ?_, ?_, ?_⟩
    · intro x hx
      rcases hadj x hx with hx' | hx'
      · exact Or.inl (hd x hx')
      · exact Or.inr hx'
    · intro x hxB hxd hxf
      rcases hnew x hxd with hxd0 | hx' | hx'
      · exact ha x (hgray x hxB hxd0 (fun hc => hxf (hf x hc))) hxf
      · exact hx'
      · exact absurd hx' hxf
    · refine ih hsub hd hf ?_ ?_
      · intro y hy
        rcases hnew y hy with hy' | hy' | hy'
        · exact Or.inl hy'
        · exact Or.inr (Or.inl (List.mem_cons_of_mem g hy'))
        · exact Or.inr (Or.inr hy')
      · intro y hy hyf
        rcases List.mem_cons.mp hy with rfl | hy'
        · exact List.mem_cons_self y _
        · exact List.mem_cons_of_mem g (ha y hy' hyf)

/-- A chain of edges ending at `g` yields a path to `g` from any
earlier member. -/
theorem chain_transGen {n : Nat} {adj : Fin n → List (Fin n)} :
    ∀ {l : List (Fin n)} {g : Fin n},
      (l ++ [g]).Chain' (fun a b => b ∈ adj a) →
      ∀ s ∈ l, Relation.TransGen (GStep adj) s g := by
  intro l
  induction l with
  | nil => intro g _ s hs; exact absurd hs (List.not_mem_nil s)
  | cons a l ih =>
    intro g hch s hs
    have hch' : (l ++ [g]).Chain' (fun a b => b ∈ adj a) :=
      (List.chain'_cons'.mp hch).2
    rcases List.mem_cons.mp hs with rfl | hs'
    · rcases l with _ | ⟨b, l'⟩
      · exact Relation.TransGen.single ((List.chain'_cons.mp hch).1)
      · exact Relation.TransGen.head ((List.chain'_cons.mp hch).1)
          (ih hch' b (List.mem_cons_self b l'))
    · exact ih hch' s hs'

theorem FinSorted.push {n : Nat} {adj : Fin n → List (Fin n)}
    {fin : List (Fin n)} {x : Fin n} (h : FinSorted adj fin)
    (hx : ∀ b ∈ adj x, b ∈ fin) : FinSorted adj (fin ++ [x]) := by
  intro l₁ z l₂ hdec b hb
  rcases List.append_eq_append_iff.mp hdec with ⟨u, hu1, hu2⟩ | ⟨u, hu1, hu2⟩
  · rcases u with _ | ⟨y, u'⟩
    · simp only [List.nil_append] at hu2
      obtain ⟨rfl, rfl⟩ : x = z ∧ ([] : List (Fin n)) = l₂ := by
        exact ⟨(List.cons.injEq x [] z l₂).mp hu2 |>.1, (List.cons.injEq x [] z l₂).mp hu2 |>.2⟩
      simp only [List.append_nil] at hu1
      subst hu1
      exact hx b hb
    · have := congrArg List.length hu2
      simp at this
  · rcases u with _ | ⟨y, u'⟩
    · simp only [List.nil_append] at hu2
      obtain ⟨rfl, rfl⟩ : z = x ∧ l₂ = [] :=
        ⟨((List.cons.injEq z l₂ x []).mp hu2).1, ((List.cons.injEq z l₂ x []).mp hu2).2⟩
      simp only [List.append_nil] at hu1
      subst hu1
      exact hx b hb
    · have h2 := (List.cons.injEq z l₂ y (u' ++ [x])).mp hu2
      obtain ⟨rfl, rfl⟩ := h2
      exact h l₁ z u' hu1 b hb

theorem grays_stack_irrel {n : Nat} (d f s s' : List (Fin n)) :
    Grays ⟨d, f, s⟩ = Grays ⟨d, f, s'⟩ := rfl

theorem grays_visit {n : Nat} {d f : List (Fin n)} {x : Fin n} (s s' : List (Fin n))
    (hx : x ∉ f) : Grays ⟨d ++ [x], f, s⟩ = Grays ⟨d, f, s'⟩ ++ [x] := by
  simp only [Grays, List.filter_append]
  congr 1
  simp [hx]

theorem grays_finish {n : Nat} {d f init : List (Fin n)} {x : Fin n}
    (s s' : List (Fin n)) (hnd : d.Nodup)
    (hg : Grays ⟨d, f, s⟩ = init ++ [x]) : Grays ⟨d, f ++ [x], s'⟩ = init := by
  have hstep : Grays ⟨d, f ++ [x], s'⟩ = (Grays ⟨d, f, s⟩).filter (fun v => v ≠ x) := by
    simp only [Grays, List.filter_filter]
    refine List.filter_congr ?_
    intro v _
    by_cases h1 : v ∈ f <;> by_cases h2 : v = x <;>
      simp [h1, h2, List.mem_append]
  have hndG : (Grays ⟨d, f, s⟩).Nodup := List.Nodup.filter _ hnd
  rw [hstep, hg]
  rw [hg] at hndG
  have hxinit : x ∉ init := by
    intro hc
    have := List.disjoint_of_nodup_append hndG
    exact this hc (List.mem_singleton_self x)
  rw [List.filter_append]
  have h1 : init.filter (fun v => v ≠ x) = init := by
    refine List.filter_eq_self.mpr ?_
    intro a ha
    simp only [ne_eq, decide_eq_true_eq]
    exact fun hc => hxinit (hc ▸ ha)
  have h2 : [x].filter (fun v => v ≠ x) = [] := by simp
  rw [h1, h2, List.append_nil]

/-- Behaviour of one inner DFS run: an error implies a cycle in the
graph; a normal return preserves the invariant, empties the stack, only
appends to the discovery and finish lists, and finishes everything that
was on the stack. -/
theorem innerLoop_spec {n : Nat} {adj : Fin n → List (Fin n)} :
    ∀ (fuel : Nat) (σ : St n) (res : Except (Fin n) (St n)),
      innerLoop adj fuel σ = some res → DfsInv adj σ →
      (GCyclic adj ∧ ∃ c, res = .error c) ∨
      (∃ σ' : St n, res = .ok σ' ∧ DfsInv adj σ' ∧ σ'.stack = [] ∧
        (∃ d2, σ'.disc = σ.disc ++ d2) ∧ (∃ f2, σ'.fin = σ.fin ++ f2) ∧
        (∀ x ∈ σ.stack, x ∈ σ'.fin)) := by
  intro fuel
  induction fuel with
  | zero => intro σ res h; simp [innerLoop] at h
  | succ fuel ih =>
    rintro ⟨disc, fin, stack⟩ res h inv
    cases stack with
    | nil =>
      simp only [innerLoop] at h
      rw [Option.some.injEq] at h
      subst h
      exact Or.inr ⟨⟨disc, fin, []⟩, rfl, inv, rfl, ⟨[], by simp⟩, ⟨[], by simp⟩,
        fun x hx => absurd hx (List.not_mem_nil x)⟩
    | cons nx rest =>
      simp only [innerLoop] at h
      by_cases hd : nx ∈ disc
      · rw [if_pos hd] at h
        by_cases hf : nx ∈ fin
        · -- already finished: plain pop
          rw [if_pos hf] at h
          have hdec : Decomp adj disc fin [] (nx :: rest)
              (Grays ⟨disc, fin, rest⟩).reverse := inv.decomp
          have inv1 : DfsInv adj ⟨disc, fin, rest⟩ := by
            refine ⟨inv.ndDisc, inv.ndFin, inv.finSubDisc, inv.finSorted, inv.chain,
              inv.noself, ?_⟩
            cases hG : (Grays ⟨disc, fin, rest⟩).reverse with
            | nil =>
              rw [hG] at hdec
              intro x hx hxd hxf
              exact hdec x (List.mem_cons_of_mem nx hx) hxd hxf
            | cons g gs =>
              rw [hG] at hdec
              obtain ⟨B, t, heq, hB, hadj, hgray, hsub⟩ := hdec
              have hgG : g ∈ Grays ⟨disc, fin, rest⟩ := by
                rw [← List.mem_reverse, hG]; exact List.mem_cons_self g gs
              have hgfin : g ∉ fin := (mem_grays.mp hgG).2
              cases B with
              | nil =>
                simp only [List.nil_append] at heq
                obtain ⟨rfl, rfl⟩ := List.cons.inj heq
                exact absurd hf hgfin
              | cons b B' =>
                simp only [List.cons_append] at heq
                obtain ⟨rfl, hrest⟩ := List.cons.inj heq
                show Decomp adj disc fin [] rest (g :: gs)
                refine ⟨B', t, hrest, fun x hx => hB x (List.mem_cons_of_mem nx hx), ?_, ?_, hsub⟩
                · intro x hx
                  rcases hadj x hx with hx' | hx'
                  · exact Or.inl hx'
                  · rcases List.mem_cons.mp hx' with rfl | hx''
                    · exact Or.inl hd
                    · exact Or.inr hx''
                · exact fun x hx hxd hxf => hgray x (List.mem_cons_of_mem nx hx) hxd hxf
          rcases ih ⟨disc, fin, rest⟩ res h inv1 with hcyc | ⟨σ', hres, hinv', hst, hd2, hf2, hall⟩
          · exact Or.inl hcyc
          · refine Or.inr ⟨σ', hres, hinv', hst, hd2, hf2, ?_⟩
            intro x hx
            rcases List.mem_cons.mp hx with rfl | hx'
            · obtain ⟨f2, hf2⟩ := hf2
              rw [hf2]; exact List.mem_append_left f2 hf
            · exact hall x hx'
        · -- gray pop: newly finishing nx
          rw [if_neg hf] at h
          have hnxG : nx ∈ Grays ⟨disc, fin, nx :: rest⟩ := mem_grays.mpr ⟨hd, hf⟩
          have hdec : Decomp adj disc fin [] (nx :: rest)
              (Grays ⟨disc, fin, nx :: rest⟩).reverse := inv.decomp
          cases hG : (Grays ⟨disc, fin, nx :: rest⟩).reverse with
          | nil =>
            rw [← List.mem_reverse, hG] at hnxG
            exact absurd hnxG (List.not_mem_nil nx)
          | cons g gs =>
            rw [hG] at hdec
            obtain ⟨B, t, heq, hB, hadj, hgray, hsub⟩ := hdec
            have hBnil : B = [] := by
              cases B with
              | nil => rfl
              | cons b B' =>
                simp only [List.cons_append] at heq
                obtain ⟨rfl, -⟩ := List.cons.inj heq
                exact absurd (hgray nx (List.mem_cons_self nx B') hd hf) (List.not_mem_nil nx)
            subst hBnil
            simp only [List.nil_append] at heq
            obtain ⟨rfl, rfl⟩ := List.cons.inj heq
            have hGfull : Grays ⟨disc, fin, nx :: rest⟩ = gs.reverse ++ [nx] := by
              have h2 := congrArg List.reverse hG
              rw [List.reverse_reverse] at h2
              simpa using h2
            by_cases hall : ∀ s ∈ adj nx, s ∈ fin ++ [nx]
            · rw [if_pos hall] at h
              have hnself : nx ∉ adj nx := inv.noself nx hnxG
              have hallfin : ∀ s ∈ adj nx, s ∈ fin := by
                intro s hs
                rcases List.mem_append.mp (hall s hs) with h' | h'
                · exact h'
                · rw [List.mem_singleton] at h'
                  exact absurd (h' ▸ hs) hnself
              have hG1 : Grays ⟨disc, fin ++ [nx], rest⟩ = gs.reverse :=
                grays_finish (nx :: rest) rest inv.ndDisc hGfull
              have inv1 : DfsInv adj ⟨disc, fin ++ [nx], rest⟩ := by
                refine ⟨inv.ndDisc, ?_, ?_, FinSorted.push inv.finSorted hallfin, ?_, ?_, ?_⟩
                · refine List.Nodup.append inv.ndFin (List.nodup_singleton nx) ?_
                  intro a ha ha'
                  rw [List.mem_singleton] at ha'
                  exact hf (ha' ▸ ha)
                · intro x hx
                  rcases List.mem_append.mp hx with h' | h'
                  · exact inv.finSubDisc x h'
                  · rw [List.mem_singleton] at h'
                    exact h' ▸ hd
                · show (Grays ⟨disc, fin ++ [nx], rest⟩).Chain' _
                  rw [hG1]
                  have hc := inv.chain
                  rw [hGfull] at hc
                  exact (List.chain'_append.mp hc).1
                · intro g hg
                  refine inv.noself g ?_
                  rw [hGfull]
                  rw [hG1] at hg
                  exact List.mem_append_left [nx] hg
                · show Decomp adj disc (fin ++ [nx]) [] rest
                    (Grays ⟨disc, fin ++ [nx], rest⟩).reverse
                  rw [hG1, List.reverse_reverse]
                  refine Decomp.mono hsub (fun y hy => hy)
                    (fun y hy => List.mem_append_left [nx] hy) (fun y hy => Or.inl hy) ?_
                  intro y hy hyf
                  rcases List.mem_cons.mp hy with rfl | hy'
                  · exact absurd (List.mem_append_right fin (List.mem_singleton_self y)) hyf
                  · exact absurd hy' (List.not_mem_nil y)
              rcases ih ⟨disc, fin ++ [nx], rest⟩ res h inv1 with hcyc |
                ⟨σ', hres, hinv', hst, hd2, hf2, hallf⟩
              · exact Or.inl hcyc
              · refine Or.inr ⟨σ', hres, hinv', hst, hd2, ?_, ?_⟩
                · obtain ⟨f2, hf2⟩ := hf2
                  exact ⟨[nx] ++ f2, by rw [hf2, List.append_assoc]⟩
                · intro x hx
                  rcases List.mem_cons.mp hx with rfl | hx'
                  · obtain ⟨f2, hf2⟩ := hf2
                    rw [hf2]
                    exact List.mem_append_left f2
                      (List.mem_append_right fin (List.mem_singleton_self x))
                  · exact hallf x hx'
            · -- failed finish check: a gray successor, hence a cycle
              rw [if_neg hall] at h
              rw [Option.some.injEq] at h
              subst h
              push_neg at hall
              obtain ⟨s, hs, hsnf⟩ := hall
              have hsfin : s ∉ fin := fun hc => hsnf (List.mem_append_left [nx] hc)
              have hsnx : s ≠ nx := by
                intro hc
                exact hsnf (List.mem_append_right fin
                  (by rw [hc]; exact List.mem_singleton_self nx))
              have hsdisc : s ∈ disc := by
                rcases hadj s hs with h' | h'
                · exact h'
                · exact absurd h' (List.not_mem_nil s)
              have hsG : s ∈ gs.reverse := by
                have hmem : s ∈ Grays ⟨disc, fin, nx :: rest⟩ := mem_grays.mpr ⟨hsdisc, hsfin⟩
                rw [hGfull] at hmem
                rcases List.mem_append.mp hmem with h' | h'
                · exact h'
                · rw [List.mem_singleton] at h'
                  exact absurd h' hsnx
              have hchain := inv.chain
              rw [hGfull] at hchain
              have hpath : Relation.TransGen (GStep adj) s nx :=
                chain_transGen hchain s hsG
              exact Or.inl ⟨⟨s, hpath.trans (Relation.TransGen.single hs)⟩, nx, rfl⟩
      · -- undiscovered: visit
        rw [if_neg hd] at h
        by_cases hself : nx ∈ adj nx
        · rw [if_pos hself] at h
          rw [Option.some.injEq] at h
          subst h
          exact Or.inl ⟨⟨nx, Relation.TransGen.single hself⟩, nx, rfl⟩
        · rw [if_neg hself] at h
          have hnf : nx ∉ fin := fun hc => hd (inv.finSubDisc nx hc)
          have hG1 : Grays ⟨disc ++ [nx], fin,
              ((adj nx).filter (fun s => s ∉ disc ++ [nx])).reverse ++ nx :: rest⟩ =
              Grays ⟨disc, fin, nx :: rest⟩ ++ [nx] :=
            grays_visit _ _ hnf
          have hdec : Decomp adj disc fin [] (nx :: rest)
              (Grays ⟨disc, fin, nx :: rest⟩).reverse := inv.decomp
          have inv1 : DfsInv adj ⟨disc ++ [nx], fin,
              ((adj nx).filter (fun s => s ∉ disc ++ [nx])).reverse ++ nx :: rest⟩ := by
            refine ⟨?_, inv.ndFin, ?_, inv.finSorted, ?_, ?_, ?_⟩
            · refine List.Nodup.append inv.ndDisc (List.nodup_singleton nx) ?_
              intro a ha ha'
              rw [List.mem_singleton] at ha'
              exact hd (ha' ▸ ha)
            · exact fun x hx => List.mem_append_left [nx] (inv.finSubDisc x hx)
            · show (Grays _).Chain' _
              rw [hG1]
              rw [List.chain'_append]
              refine ⟨inv.chain, List.chain'_singleton nx, ?_⟩
              intro x hx y hy
              simp only [List.head?_cons, Option.mem_def, Option.some.injEq] at hy
              subst hy
              -- x is the last gray; show nx ∈ adj x
              cases hG : (Grays ⟨disc, fin, nx :: rest⟩).reverse with
              | nil =>
                rw [← List.head?_reverse, hG] at hx
                simp at hx
              | cons g gs =>
                rw [← List.head?_reverse, hG] at hx
                simp only [List.head?_cons, Option.mem_def, Option.some.injEq] at hx
                subst hx
                rw [hG] at hdec
                obtain ⟨B, t, heq, hB, hadj, hgray, hsub⟩ := hdec
                cases B with
                | nil =>
                  simp only [List.nil_append] at heq
                  obtain ⟨rfl, rfl⟩ := List.cons.inj heq
                  have hxmem : nx ∈ Grays ⟨disc, fin, nx :: rest⟩ := by
                    rw [← List.mem_reverse, hG]
                    exact List.mem_cons_self nx gs
                  exact absurd (mem_grays.mp hxmem).1 hd
                | cons b B' =>
                  simp only [List.cons_append] at heq
                  obtain ⟨rfl, -⟩ := List.cons.inj heq
                  exact hB nx (List.mem_cons_self nx B')
            · intro g hg
              rw [show Grays ⟨disc ++ [nx], fin,
                  ((adj nx).filter (fun s => s ∉ disc ++ [nx])).reverse ++ nx :: rest⟩ =
                  Grays ⟨disc, fin, nx :: rest⟩ ++ [nx] from hG1] at hg
              rcases List.mem_append.mp hg with h' | h'
              · exact inv.noself g h'
              · rw [List.mem_singleton] at h'
                exact h' ▸ hself
            · show Decomp adj (disc ++ [nx]) fin []
                (((adj nx).filter (fun s => s ∉ disc ++ [nx])).reverse ++ nx :: rest)
                (Grays ⟨disc ++ [nx], fin,
                  ((adj nx).filter (fun s => s ∉ disc ++ [nx])).reverse ++ nx :: rest⟩).reverse
              rw [hG1, List.reverse_append, List.reverse_singleton, List.singleton_append]
              refine ⟨((adj nx).filter (fun s => s ∉ disc ++ [nx])).reverse, rest, rfl, ?_, ?_, ?_, ?_⟩
              · intro x hx
                rw [List.mem_reverse] at hx
                exact (List.mem_filter.mp hx).1
              · intro x hx
                by_cases hxd : x ∈ disc ++ [nx]
                · exact Or.inl hxd
                · refine Or.inr ?_
                  rw [List.mem_reverse, List.mem_filter]
                  exact ⟨hx, by simpa using hxd⟩
              · intro y hy hyd hyf
                rw [List.mem_reverse, List.mem_filter] at hy
                have hnot : y ∉ disc ++ [nx] := by simpa using hy.2
                exact absurd hyd hnot
              · cases hG : (Grays ⟨disc, fin, nx :: rest⟩).reverse with
                | nil =>
                  rw [hG] at hdec
                  intro x hx hxd hxf
                  rcases List.mem_append.mp hxd with h' | h'
                  · exact absurd (hdec x (List.mem_cons_of_mem nx hx) h' hxf) (List.not_mem_nil x)
                  · rw [List.mem_singleton] at h'
                    subst h'
                    exact List.mem_singleton_self x
                | cons g gs =>
                  rw [hG] at hdec
                  obtain ⟨B, t, heq, hB, hadj, hgray, hsub⟩ := hdec
                  have hgdisc : g ∈ disc := by
                    have hmem : g ∈ Grays ⟨disc, fin, nx :: rest⟩ := by
                      rw [← List.mem_reverse, hG]
                      exact List.mem_cons_self g gs
                    exact (mem_grays.mp hmem).1
                  cases B with
                  | nil =>
                    simp only [List.nil_append] at heq
                    obtain ⟨rfl, rfl⟩ := List.cons.inj heq
                    exact absurd hgdisc hd
                  | cons b B' =>
                    simp only [List.cons_append] at heq
                    obtain ⟨rfl, hrest⟩ := List.cons.inj heq
                    refine ⟨B', t, hrest, fun x hx => hB x (List.mem_cons_of_mem nx hx), ?_, ?_, ?_⟩
                    · intro x hx
                      rcases hadj x hx with h' | h'
                      · exact Or.inl (List.mem_append_left [nx] h')
                      · rcases List.mem_cons.mp h' with rfl | h''
                        · exact Or.inl (List.mem_append_right disc (List.mem_singleton_self x))
                        · exact Or.inr h''
                    · intro y hy hyd hyf
                      rcases List.mem_append.mp hyd with h' | h'
                      · exact absurd (hgray y (List.mem_cons_of_mem nx hy) h' hyf)
                          (List.not_mem_nil y)
                      · rw [List.mem_singleton] at h'
                        subst h'
                        exact List.mem_singleton_self y
                    · refine Decomp.mono hsub (fun y hy => List.mem_append_left [nx] hy)
                        (fun y hy => hy) ?_ ?_
                      · intro y hy
                        rcases List.mem_append.mp hy with h' | h'
                        · exact Or.inl h'
                        · rw [List.mem_singleton] at h'
                          subst h'
                          exact Or.inr (Or.inl (List.mem_cons_of_mem g (List.mem_singleton_self y)))
                      · intro y hy hyf
                        rcases List.mem_cons.mp hy with rfl | h'
                        · exact List.mem_cons_self y _
                        · exact absurd h' (List.not_mem_nil y)
          rcases ih _ res h inv1 with hcyc | ⟨σ', hres, hinv', hst, hd2, hf2, hallf⟩
          · exact Or.inl hcyc
          · refine Or.inr ⟨σ', hres, hinv', hst, ?_, hf2, ?_⟩
            · obtain ⟨d2, hd2⟩ := hd2
              exact ⟨[nx] ++ d2, by rw [hd2]; simp [List.append_assoc]⟩
            · intro x hx
              refine hallf x ?_
              rcases List.mem_cons.mp hx with rfl | hx'
              · exact List.mem_append_right _ (List.mem_cons_self x rest)
              · exact List.mem_append_right _ (List.mem_cons_of_mem nx hx')

/-- A normal return of the DFS loop happens only with an empty stack. -/
theorem innerLoop_ok_stack {n : Nat} {adj : Fin n → List (Fin n)} :
    ∀ (fuel : Nat) (σ σ' : St n), innerLoop adj fuel σ = some (.ok σ') →
      σ'.stack = [] := by
  intro fuel
  induction fuel with
  | zero => intro σ σ' h; simp [innerLoop] at h
  | succ fuel ih =>
    rintro ⟨disc, fin, stack⟩ σ' h
    cases stack with
    | nil =>
      simp only [innerLoop] at h
      rw [Option.some.injEq, Except.ok.injEq] at h
      rw [← h]
    | cons nx rest =>
      simp only [innerLoop] at h
      by_cases hd : nx ∈ disc
      · rw [if_pos hd] at h
        by_cases hf : nx ∈ fin
        · rw [if_pos hf] at h; exact ih _ _ h
        · rw [if_neg hf] at h
          by_cases hall : ∀ s ∈ adj nx, s ∈ fin ++ [nx]
          · rw [if_pos hall] at h; exact ih _ _ h
          · rw [if_neg hall] at h; simp at h
      · rw [if_neg hd] at h
        by_cases hself : nx ∈ adj nx
        · rw [if_pos hself] at h; simp at h
        · rw [if_neg hself] at h; exact ih _ _ h

/-- With fuel above the potential, the DFS loop does not run out. -/
theorem innerLoop_some {n : Nat} {adj : Fin n → List (Fin n)} :
    ∀ (fuel : Nat) (σ : St n), potential adj σ < fuel →
      innerLoop adj fuel σ ≠ none := by
  intro fuel
  induction fuel with
  | zero => intro σ h; exact absurd h (Nat.not_lt_zero _)
  | succ fuel ih =>
    rintro ⟨disc, fin, stack⟩ hpot
    cases stack with
    | nil => simp [innerLoop]
    | cons nx rest =>
      simp only [innerLoop]
      by_cases hd : nx ∈ disc
      · rw [if_pos hd]
        by_cases hf : nx ∈ fin
        · rw [if_pos hf]
          refine ih _ ?_
          simp only [potential, List.length_cons] at hpot ⊢
          omega
        · rw [if_neg hf]
          by_cases hall : ∀ s ∈ adj nx, s ∈ fin ++ [nx]
          · rw [if_pos hall]
            refine ih _ ?_
            simp only [potential, List.length_cons] at hpot ⊢
            omega
          · rw [if_neg hall]; simp
      · rw [if_neg hd]
        by_cases hself : nx ∈ adj nx
        · rw [if_pos hself]; simp
        · rw [if_neg hself]
          refine ih _ ?_
          have hset : Finset.univ \ (disc ++ [nx]).toFinset =
              (Finset.univ \ disc.toFinset).erase nx := by
            ext y
            simp only [Finset.mem_sdiff, Finset.mem_univ, true_and, List.mem_toFinset,
              List.mem_append, List.mem_singleton, Finset.mem_erase]
            tauto
          have hnx : nx ∈ Finset.univ \ disc.toFinset := by
            simp only [Finset.mem_sdiff, Finset.mem_univ, true_and, List.mem_toFinset]
            exact hd
          have hsum :
              (∑ v ∈ (Finset.univ \ disc.toFinset).erase nx, (1 + (adj v).length)) +
                (1 + (adj nx).length) =
              ∑ v ∈ Finset.univ \ disc.toFinset, (1 + (adj v).length) :=
            Finset.sum_erase_add _ _ hnx
          have hlen : ((adj nx).filter (fun s => s ∉ disc ++ [nx])).reverse.length ≤
              (adj nx).length := by
            rw [List.length_reverse]
            exact List.length_filter_le _ _
          simp only [potential, List.length_cons, List.length_append, hset] at hpot ⊢
          omega

/-- Behaviour of the outer scan: an error implies a cycle; a normal
return preserves the invariant and finishes every scanned root. -/
theorem outerLoop_spec {n : Nat} {adj : Fin n → List (Fin n)} :
    ∀ (roots : List (Fin n)) (fuel : Nat) (σ : St n) (res : Except (Fin n) (St n)),
      outerLoop adj fuel roots σ = some res → DfsInv adj σ → σ.stack = [] →
      (GCyclic adj ∧ ∃ c, res = .error c) ∨
      (∃ σ', res = .ok σ' ∧ DfsInv adj σ' ∧ σ'.stack = [] ∧
        (∃ f2, σ'.fin = σ.fin ++ f2) ∧ (∀ i ∈ roots, i ∈ σ'.fin)) := by
  intro roots
  induction roots with
  | nil =>
    rintro fuel σ res h inv hst
    simp only [outerLoop] at h
    rw [Option.some.injEq] at h
    subst h
    exact Or.inr ⟨σ, rfl, inv, hst, ⟨[], by simp⟩, fun i hi => absurd hi (List.not_mem_nil i)⟩
  | cons i rest ih =>
    rintro fuel ⟨disc, fin, stack⟩ res h inv hst
    obtain rfl : stack = [] := hst
    have hgnil : Grays ⟨disc, fin, ([] : List (Fin n))⟩ = [] := by
      cases hg : Grays ⟨disc, fin, ([] : List (Fin n))⟩ with
      | nil => rfl
      | cons a l =>
        have ha : a ∈ (Grays ⟨disc, fin, ([] : List (Fin n))⟩).reverse := by
          rw [List.mem_reverse, hg]; exact List.mem_cons_self a l
        have := Decomp.spine_mem inv.decomp a ha
        exact absurd this (List.not_mem_nil a)
    simp only [outerLoop] at h
    by_cases hd : i ∈ disc
    · rw [if_pos hd] at h
      have hif : i ∈ fin := by
        by_contra hif
        have hm : i ∈ Grays ⟨disc, fin, ([] : List (Fin n))⟩ := mem_grays.mpr ⟨hd, hif⟩
        rw [hgnil] at hm
        exact absurd hm (List.not_mem_nil i)
      rcases ih fuel _ res h inv rfl with hc | ⟨σ', hres, hinv', hst', hf2, hall⟩
      · exact Or.inl hc
      · refine Or.inr ⟨σ', hres, hinv', hst', hf2, ?_⟩
        intro j hj
        rcases List.mem_cons.mp hj with rfl | hj'
        · obtain ⟨f2, hf2⟩ := hf2
          rw [hf2]; exact List.mem_append_left f2 hif
        · exact hall j hj'
    · rw [if_neg hd] at h
      have invp : DfsInv adj ⟨disc, fin, [i]⟩ := by
        refine ⟨inv.ndDisc, inv.ndFin, inv.finSubDisc, inv.finSorted, ?_, ?_, ?_⟩
        · show (Grays ⟨disc, fin, [i]⟩).Chain' _
          rw [grays_stack_irrel disc fin [i] [], hgnil]
          exact List.chain'_nil
        · intro g hg
          rw [grays_stack_irrel disc fin [i] [], hgnil] at hg
          exact absurd hg (List.not_mem_nil g)
        · show Decomp adj disc fin [] [i] (Grays ⟨disc, fin, [i]⟩).reverse
          rw [grays_stack_irrel disc fin [i] [], hgnil]
          intro x hx hxd hxf
          rw [List.mem_singleton] at hx
          exact absurd (hx ▸ hxd) hd
      cases hin : innerLoop adj fuel ⟨disc, fin, [i]⟩ with
      | none => rw [hin] at h; exact absurd h (by simp)
      | some r =>
        rw [hin] at h
        cases r with
        | error c =>
          rw [Option.some.injEq] at h
          subst h
          rcases innerLoop_spec fuel _ _ hin invp with ⟨hcyc, -⟩ | ⟨σ', hres, -⟩
          · exact Or.inl ⟨hcyc, c, rfl⟩
          · exact absurd hres (by simp)
        | ok σ'' =>
          rcases innerLoop_spec fuel _ _ hin invp with ⟨-, c, hc⟩ |
            ⟨τ, hres, hinv'', hst'', hd2, hf2, hallf⟩
          · exact absurd hc (by simp)
          · rw [Except.ok.injEq] at hres
            subst hres
            rcases ih fuel σ'' res h hinv'' hst'' with hc | ⟨σ', hres', hinv', hst', hf2', hall⟩
            · exact Or.inl hc
            · refine Or.inr ⟨σ', hres', hinv', hst', ?_, ?_⟩
              · obtain ⟨f2, hf2⟩ := hf2
                obtain ⟨f2', hf2'⟩ := hf2'
                refine ⟨f2 ++ f2', ?_⟩
                rw [hf2', hf2]
                simp [List.append_assoc]
              · intro j hj
                rcases List.mem_cons.mp hj with rfl | hj'
                · obtain ⟨f2', hf2'⟩ := hf2'
                  rw [hf2']
                  exact List.mem_append_left f2' (hallf j (List.mem_singleton_self j))
                · exact hall j hj'

/-- The outer scan never runs out of fuel at `topoFuel`. -/
theorem outerLoop_some {n : Nat} {adj : Fin n → List (Fin n)} :
    ∀ (roots : List (Fin n)) (σ : St n), σ.stack = [] →
      outerLoop adj (topoFuel n adj) roots σ ≠ none := by
  intro roots
  induction roots with
  | nil => intro σ h; simp [outerLoop]
  | cons i rest ih =>
    rintro ⟨disc, fin, stack⟩ hst
    obtain rfl : stack = [] := hst
    simp only [outerLoop]
    by_cases hd : i ∈ disc
    · rw [if_pos hd]; exact ih _ rfl
    · rw [if_neg hd]
      have hpot : potential adj ⟨disc, fin, [i]⟩ < topoFuel n adj := by
        have hle : ∑ v ∈ Finset.univ \ disc.toFinset, (1 + (adj v).length) ≤
            ∑ v ∈ Finset.univ, (1 + (adj v).length) :=
          Finset.sum_le_sum_of_subset Finset.sdiff_subset
        simp only [potential, topoFuel, List.length_cons, List.length_nil]
        omega
      cases hin : innerLoop adj (topoFuel n adj) ⟨disc, fin, [i]⟩ with
      | none => exact absurd hin (innerLoop_some _ _ hpot)
      | some r =>
        cases r with
        | error c => simp
        | ok σ'' => exact ih σ'' (innerLoop_ok_stack _ _ _ hin)

theorem dfsInv_init {n : Nat} (adj : Fin n → List (Fin n)) :
    DfsInv adj ⟨[], [], []⟩ := by
  refine ⟨List.nodup_nil, List.nodup_nil, ?_, ?_, ?_, ?_, ?_⟩
  · intro x hx; exact absurd hx (List.not_mem_nil x)
  · intro l₁ a l₂ hdec
    exact absurd hdec.symm (List.append_ne_nil_of_right_ne_nil l₁ (List.cons_ne_nil a l₂))
  · exact List.chain'_nil
  · intro g hg; exact absurd hg (List.not_mem_nil g)
  · intro x hx; exact absurd hx (List.not_mem_nil x)

/-- On success the scheduler's output has no duplicates, contains every
node, has length `n`, and respects all edges. -/
theorem toposort_ok_spec {n : Nat} {adj : Fin n → List (Fin n)} {out : List (Fin n)}
    (h : toposort n adj = .ok out) :
    out.Nodup ∧ (∀ v, v ∈ out) ∧ out.length = n ∧ TopoSorted adj out := by
  unfold toposort at h
  cases hout : outerLoop adj (topoFuel n adj) (List.finRange n) ⟨[], [], []⟩ with
  | none => rw [hout] at h; exact absurd h (by simp)
  | some r =>
    rw [hout] at h
    cases r with
    | error c => exact absurd h (by simp)
    | ok σ =>
      rw [Except.ok.injEq] at h
      subst h
      rcases outerLoop_spec _ _ _ _ hout (dfsInv_init adj) rfl with ⟨-, c, hc⟩ |
        ⟨σ', hres, hinv, -, -, hall⟩
      · exact absurd hc (by simp)
      · rw [Except.ok.injEq] at hres
        obtain rfl := hres
        have hcom : ∀ v : Fin n, v ∈ σ.fin := fun v => hall v (List.mem_finRange v)
        refine ⟨List.nodup_reverse.mpr hinv.ndFin, ?_, ?_, ?_⟩
        · intro v; rw [List.mem_reverse]; exact hcom v
        · have huniv : σ.fin.toFinset = Finset.univ := by
            ext y
            simp only [List.mem_toFinset, Finset.mem_univ, iff_true]
            exact hcom y
          have hcard := List.toFinset_card_of_nodup hinv.ndFin
          rw [huniv, Finset.card_univ, Fintype.card_fin] at hcard
          rw [List.length_reverse]
          omega
        · intro l₁ a l₂ hdec b hb
          have hfin : σ.fin = l₂.reverse ++ a :: l₁.reverse := by
            have h2 := congrArg List.reverse hdec
            rw [List.reverse_reverse] at h2
            rw [h2, List.reverse_append, List.reverse_cons, List.append_assoc,
              List.singleton_append]
          have := hinv.finSorted l₂.reverse a l₁.reverse hfin b hb
          rw [List.mem_reverse] at this
          exact this

/-- In a complete, topologically sorted list, every path target
appears strictly after its source. -/
theorem transGen_after {n : Nat} {adj : Fin n → List (Fin n)} {out : List (Fin n)}
    (hcom : ∀ v : Fin n, v ∈ out) (hsort : TopoSorted adj out) :
    ∀ a b : Fin n, Relation.TransGen (GStep adj) a b →
      ∃ s t, out = s ++ a :: t ∧ b ∈ t := by
  intro a b hab
  induction hab with
  | single hstep =>
    obtain ⟨s, t, hst⟩ := List.append_of_mem (hcom a)
    exact ⟨s, t, hst, hsort s a t hst _ hstep⟩
  | tail hac hstep ihac =>
    rename_i mid tgt
    obtain ⟨s, t, hst, hct⟩ := ihac
    obtain ⟨u, w, huw⟩ := List.append_of_mem hct
    have hout2 : out = (s ++ a :: u) ++ mid :: w := by
      rw [hst, huw]
      simp [List.append_assoc]
    have hbw : tgt ∈ w := hsort (s ++ a :: u) mid w hout2 tgt hstep
    refine ⟨s, t, hst, ?_⟩
    rw [huw]
    exact List.mem_append_right u (List.mem_cons_of_mem mid hbw)

/-- A complete duplicate-free topologically sorted list forces the
graph to be acyclic. -/
theorem acyclic_of_topoSorted {n : Nat} {adj : Fin n → List (Fin n)} {out : List (Fin n)}
    (hnd : out.Nodup) (hcom : ∀ v : Fin n, v ∈ out) (hsort : TopoSorted adj out) :
    ¬ GCyclic adj := by
  rintro ⟨v, hv⟩
  obtain ⟨s, t, hst, hvt⟩ := transGen_after hcom hsort v v hv
  rw [hst] at hnd
  have h2 : (v :: t).Nodup := (List.nodup_append.mp hnd).2.1
  exact (List.nodup_cons.mp h2).1 hvt

/-- On success the graph is acyclic. -/
theorem toposort_ok_acyclic {n : Nat} {adj : Fin n → List (Fin n)} {out : List (Fin n)}
    (h : toposort n adj = .ok out) : ¬ GCyclic adj := by
  obtain ⟨hnd, hcom, -, hsort⟩ := toposort_ok_spec h
  exact acyclic_of_topoSorted hnd hcom hsort

/-- On an acyclic graph the scheduler succeeds. -/
theorem toposort_ok_of_acyclic {n : Nat} {adj : Fin n → List (Fin n)}
    (hacyc : ¬ GCyclic adj) : ∃ out, toposort n adj = .ok out := by
  unfold toposort
  cases hout : outerLoop adj (topoFuel n adj) (List.finRange n) ⟨[], [], []⟩ with
  | none => exact absurd hout (outerLoop_some _ _ rfl)
  | some r =>
    cases r with
    | error c =>
      rcases outerLoop_spec _ _ _ _ hout (dfsInv_init adj) rfl with ⟨hcyc, -⟩ | ⟨σ', hres, -⟩
      · exact absurd hcyc hacyc
      · exact absurd hres (by simp)
    | ok σ => exact ⟨σ.fin.reverse, rfl⟩

/-! ## Behaviour of the plan loop -/

theorem planLoop_ok {rs : List (Res χ δ ε)} :
    ∀ (l : List (Fin rs.length)) (out : List (String × Op χ δ)) (tr : List (Ev χ)),
      (∀ ix ∈ l, (entryAt rs ix).isSome) →
      planLoop rs l out tr =
        (.ok (out ++ l.filterMap (entryAt rs)), tr ++ l.flatMap (evsAt rs)) := by
  intro l
  induction l with
  | nil => intro out tr _; simp [planLoop]
  | cons ix rest ih =>
    intro out tr hall
    have hix := hall ix (List.mem_cons_self ix rest)
    cases hfr : findRes rs (nmAt rs ix) with
    | none => simp only [entryAt, hfr] at hix; simp at hix
    | some r =>
      cases hrd : r.read with
      | error e => simp only [entryAt, hfr, hrd] at hix; simp at hix
      | ok c =>
        cases hpl : r.plan c with
        | error e => simp only [entryAt, hfr, hrd, hpl] at hix; simp at hix
        | ok op =>
          have hE : entryAt rs ix = some (nmAt rs ix, op) := by
            simp only [entryAt, hfr, hrd, hpl]
          have hEv : evsAt rs ix = [.rd (nmAt rs ix), .pl (nmAt rs ix) c] := by
            simp only [evsAt, hfr, hrd]
          simp only [planLoop, hfr, hrd, hpl]
          rw [ih _ _ (fun j hj => hall j (List.mem_cons_of_mem ix hj))]
          simp [hE, hEv, List.append_assoc]

theorem planLoop_ok_inv {rs : List (Res χ δ ε)} :
    ∀ (l : List (Fin rs.length)) (out out' : List (String × Op χ δ))
      (tr tr' : List (Ev χ)),
      planLoop rs l out tr = (.ok out', tr') →
      (∀ ix ∈ l, (entryAt rs ix).isSome) ∧
        out' = out ++ l.filterMap (entryAt rs) ∧
        tr' = tr ++ l.flatMap (evsAt rs) := by
  intro l
  induction l with
  | nil =>
    intro out out' tr tr' h
    simp only [planLoop, Prod.mk.injEq, RunResult.ok.injEq] at h
    exact ⟨fun ix hix => absurd hix (List.not_mem_nil ix), by simp [h.1.symm], by simp [h.2.symm]⟩
  | cons ix rest ih =>
    intro out out' tr tr' h
    cases hfr : findRes rs (nmAt rs ix) with
    | none => simp only [planLoop, hfr] at h; simp at h
    | some r =>
      cases hrd : r.read with
      | error e => simp only [planLoop, hfr, hrd] at h; simp at h
      | ok c =>
        cases hpl : r.plan c with
        | error e => simp only [planLoop, hfr, hrd, hpl] at h; simp at h
        | ok op =>
          simp only [planLoop, hfr, hrd, hpl] at h
          obtain ⟨hall, hout, htr⟩ := ih _ _ _ _ h
          have hE : entryAt rs ix = some (nmAt rs ix, op) := by
            simp only [entryAt, hfr, hrd, hpl]
          have hEv : evsAt rs ix = [.rd (nmAt rs ix), .pl (nmAt rs ix) c] := by
            simp only [evsAt, hfr, hrd]
          refine ⟨?_, ?_, ?_⟩
          · intro j hj
            rcases List.mem_cons.mp hj with rfl | hj'
            · rw [hE]; rfl
            · exact hall j hj'
          · rw [hout]; simp [hE, List.append_assoc]
          · rw [htr]; simp [hEv, List.append_assoc]

theorem planLoop_fail {rs : List (Res χ δ ε)} {ix : Fin rs.length} {e : ε}
    (hfail : FailEntry rs ix e) :
    ∀ (pre rest : List (Fin rs.length)) (out : List (String × Op χ δ)) (tr : List (Ev χ)),
      (∀ j ∈ pre, (entryAt rs j).isSome) →
      planLoop rs (pre ++ ix :: rest) out tr =
        (.err (.res e), tr ++ pre.flatMap (evsAt rs) ++ evsAt rs ix) := by
  intro pre
  induction pre with
  | nil =>
    intro rest out tr _
    obtain ⟨r, hfr, hcase⟩ := hfail
    rcases hcase with hrd | ⟨c, hrd, hpl⟩
    · have hEv : evsAt rs ix = [.rd (nmAt rs ix)] := by simp only [evsAt, hfr, hrd]
      simp only [List.nil_append, planLoop, hfr, hrd, hEv]
      simp
    · have hEv : evsAt rs ix = [.rd (nmAt rs ix), .pl (nmAt rs ix) c] := by
        simp only [evsAt, hfr, hrd]
      simp only [List.nil_append, planLoop, hfr, hrd, hpl, hEv]
      simp
  | cons j pre' ih =>
    intro rest out tr hpre
    have hj := hpre j (List.mem_cons_self j pre')
    cases hfr : findRes rs (nmAt rs j) with
    | none => simp only [entryAt, hfr] at hj; simp at hj
    | some r =>
      cases hrd : r.read with
      | error e' => simp only [entryAt, hfr, hrd] at hj; simp at hj
      | ok c =>
        cases hpl : r.plan c with
        | error e' => simp only [entryAt, hfr, hrd, hpl] at hj; simp at hj
        | ok op =>
          have hEv : evsAt rs j = [.rd (nmAt rs j), .pl (nmAt rs j) c] := by
            simp only [evsAt, hfr, hrd]
          simp only [List.cons_append, planLoop, hfr, hrd, hpl, List.append_eq]
          rw [ih rest _ _ (fun k hk => hpre k (List.mem_cons_of_mem j hk))]
          simp [hEv, List.append_assoc]

/-! ## Behaviour of the apply loop -/

theorem applyLoop_ok {rs : List (Res χ δ ε)} :
    ∀ (l : List (String × Op χ δ)) (tr : List String),
      (∀ p ∈ l, OkApply rs p) →
      applyLoop rs l tr = (.ok (), tr ++ l.map Prod.fst) := by
  intro l
  induction l with
  | nil => intro tr _; simp [applyLoop]
  | cons p rest ih =>
    rintro tr hall
    obtain ⟨r, hfr, hap⟩ := hall p (List.mem_cons_self p rest)
    obtain ⟨id, op⟩ := p
    simp only [applyLoop, hfr, hap]
    rw [ih _ (fun q hq => hall q (List.mem_cons_of_mem _ hq))]
    simp

theorem applyLoop_fail {rs : List (Res χ δ ε)} {p : String × Op χ δ}
    {r : Res χ δ ε} {e : ε} (hfr : findRes rs p.1 = some r)
    (hfail : r.apply p.2 = .error e) :
    ∀ (pre rest : List (String × Op χ δ)) (tr : List String),
      (∀ q ∈ pre, OkApply rs q) →
      applyLoop rs (pre ++ p :: rest) tr = (.err e, tr ++ pre.map Prod.fst ++ [p.1]) := by
  intro pre
  induction pre with
  | nil =>
    intro rest tr _
    obtain ⟨id, op⟩ := p
    simp only [List.nil_append, applyLoop, hfr, hfail]
    simp
  | cons q pre' ih =>
    intro rest tr hpre
    obtain ⟨r', hfr', hap'⟩ := hpre q (List.mem_cons_self q pre')
    obtain ⟨id', op'⟩ := q
    simp only [List.cons_append, applyLoop, hfr', hap', List.append_eq]
    rw [ih rest _ (fun q' hq' => hpre q' (List.mem_cons_of_mem _ hq'))]
    simp [List.append_assoc]

theorem applyLoop_panic {rs : List (Res χ δ ε)} {p : String × Op χ δ}
    (hfr : findRes rs p.1 = none) :
    ∀ (pre rest : List (String × Op χ δ)) (tr : List String),
      (∀ q ∈ pre, OkApply rs q) →
      applyLoop rs (pre ++ p :: rest) tr = (.panicked, tr ++ pre.map Prod.fst) := by
  intro pre
  induction pre with
  | nil =>
    intro rest tr _
    obtain ⟨id, op⟩ := p
    simp only [List.nil_append, applyLoop, hfr]
    simp
  | cons q pre' ih =>
    intro rest tr hpre
    obtain ⟨r', hfr', hap'⟩ := hpre q (List.mem_cons_self q pre')
    obtain ⟨id', op'⟩ := q
    simp only [List.cons_append, applyLoop, hfr', hap', List.append_eq]
    rw [ih rest _ (fun q' hq' => hpre q' (List.mem_cons_of_mem _ hq'))]
    simp [List.append_assoc]

/-! ## Semantics of the graph construction -/

theorem idIndex_mem {l : List String} {d : String} {k : Nat}
    (h : idIndex l d = some k) : ∃ hk : k < l.length, l[k] = d := by
  unfold idIndex at h
  cases hf : l.enum.reverse.find? (fun p => p.2 == d) with
  | none => rw [hf] at h; simp at h
  | some p =>
    rw [hf] at h
    simp only [Option.map_some'] at h
    rw [Option.some.injEq] at h
    have hp1 : p ∈ l.enum.reverse := List.mem_of_find?_eq_some hf
    rw [List.mem_reverse, List.mem_enum_iff_getElem?] at hp1
    have hp2 : p.2 = d := by
      have := List.find?_some hf
      rwa [beq_iff_eq] at this
    obtain ⟨hlt, hget⟩ := List.getElem?_eq_some.mp hp1
    subst h
    exact ⟨hlt, hp2 ▸ hget⟩

theorem idIndex_isSome_of_mem {l : List String} {d : String} (h : d ∈ l) :
    (idIndex l d).isSome := by
  obtain ⟨i, hi, hgi⟩ := List.mem_iff_getElem.mp h
  have hmem : (i, d) ∈ l.enum.reverse := by
    rw [List.mem_reverse, List.mk_mem_enum_iff_getElem?]
    exact List.getElem?_eq_some.mpr ⟨hi, hgi⟩
  unfold idIndex
  cases hf : l.enum.reverse.find? (fun p => p.2 == d) with
  | none =>
    exfalso
    have : (l.enum.reverse.find? (fun p => p.2 == d)).isSome := by
      rw [List.find?_isSome]
      exact ⟨(i, d), hmem, by simp⟩
    rw [hf] at this
    simp at this
  | some p => simp

theorem idIndex_getElem {l : List String} (hnd : l.Nodup) {k : Nat}
    (hk : k < l.length) : idIndex l l[k] = some k := by
  have h1 : (idIndex l l[k]).isSome := idIndex_isSome_of_mem (List.getElem_mem hk)
  obtain ⟨j, hj⟩ := Option.isSome_iff_exists.mp h1
  obtain ⟨hjl, hgj⟩ := idIndex_mem hj
  have hjk : j = k := (List.Nodup.getElem_inj_iff hnd).mp hgj
  rw [hj, hjk]

theorem mem_edgeList {rs : List (Res χ δ ε)} {fr tg : Nat} :
    (fr, tg) ∈ edgeList rs ↔
      ∃ (j : Nat) (hj : j < rs.length) (d : String),
        d ∈ rs[j].deps ∧ idIndex (idsOf rs) d = some fr ∧
        idIndex (idsOf rs) rs[j].id = some tg := by
  unfold edgeList
  rw [List.mem_flatMap]
  constructor
  · rintro ⟨⟨j, r⟩, hp, hmem⟩
    rw [List.mk_mem_enum_iff_getElem?] at hp
    obtain ⟨hlt, hget⟩ := List.getElem?_eq_some.mp hp
    cases hidx : idIndex (idsOf rs) r.id with
    | none => simp only [hidx] at hmem; simp at hmem
    | some t =>
      simp only [hidx] at hmem
      rw [List.mem_filterMap] at hmem
      obtain ⟨d, hd, hopt⟩ := hmem
      cases hidx2 : idIndex (idsOf rs) d with
      | none => rw [hidx2] at hopt; simp at hopt
      | some f' =>
        rw [hidx2] at hopt
        simp only [Option.map_some'] at hopt
        rw [Option.some.injEq, Prod.mk.injEq] at hopt
        obtain ⟨rfl, rfl⟩ := hopt
        exact ⟨j, hlt, d, hget ▸ hd, hidx2, hget ▸ hidx⟩
  · rintro ⟨j, hj, d, hd, hidxd, hidxid⟩
    refine ⟨(j, rs[j]), ?_, ?_⟩
    · rw [List.mk_mem_enum_iff_getElem?]
      exact List.getElem?_eq_some.mpr ⟨hj, rfl⟩
    · simp only [hidxid]
      rw [List.mem_filterMap]
      exact ⟨d, hd, by rw [hidxd]; rfl⟩

theorem mem_adjOf {rs : List (Res χ δ ε)} {a b : Fin rs.length} :
    b ∈ adjOf rs a ↔ ((a : Nat), (b : Nat)) ∈ edgeList rs := by
  unfold adjOf
  rw [List.mem_filterMap]
  constructor
  · rintro ⟨t, ht, hopt⟩
    split at hopt
    · rw [Option.some.injEq] at hopt
      rw [List.mem_reverse, List.mem_map] at ht
      obtain ⟨e, he, hsnd⟩ := ht
      rw [List.mem_filter] at he
      have hfst : e.1 = (a : Nat) := by
        have := he.2
        rwa [beq_iff_eq] at this
      have htb : t = (b : Nat) := by rw [← hopt]
      obtain ⟨e1, e2⟩ := e
      simp only at hfst hsnd
      rw [← hfst, ← htb, ← hsnd]
      exact he.1
    · exact absurd hopt (by simp)
  · intro h
    refine ⟨(b : Nat), ?_, ?_⟩
    · rw [List.mem_reverse, List.mem_map]
      exact ⟨((a : Nat), (b : Nat)), List.mem_filter.mpr ⟨h, by simp⟩, rfl⟩
    · rw [dif_pos b.isLt]

theorem idsOf_length {rs : List (Res χ δ ε)} : (idsOf rs).length = rs.length := by
  simp [idsOf]

theorem idsOf_getElem {rs : List (Res χ δ ε)} {k : Nat} (hk : k < rs.length)
    (hk2 : k < (idsOf rs).length) : (idsOf rs)[k] = rs[k].id := by
  simp [idsOf]

/-- With duplicate-free identifiers, a declared dependency that is
present in the collection yields an edge from its node to the
declaring resource's node. -/
theorem gstep_of_dep {rs : List (Res χ δ ε)} (hnd : (idsOf rs).Nodup)
    {j f : Fin rs.length} {d : String} (hd : d ∈ (rs.get j).deps)
    (hf : rs[(f : Nat)].id = d) : GStep (adjOf rs) f j := by
  rw [GStep, mem_adjOf, mem_edgeList]
  refine ⟨(j : Nat), j.isLt, d, ?_, ?_, ?_⟩
  · exact hd
  · have hfl : (f : Nat) < (idsOf rs).length := by rw [idsOf_length]; exact f.isLt
    have h1 : idIndex (idsOf rs) (idsOf rs)[(f : Nat)] = some (f : Nat) :=
      idIndex_getElem hnd hfl
    rw [idsOf_getElem f.isLt hfl, hf] at h1
    exact h1
  · have hjl : (j : Nat) < (idsOf rs).length := by rw [idsOf_length]; exact j.isLt
    have h1 : idIndex (idsOf rs) (idsOf rs)[(j : Nat)] = some (j : Nat) :=
      idIndex_getElem hnd hjl
    rw [idsOf_getElem j.isLt hjl] at h1
    exact h1

/-! ## Small list auxiliaries -/

theorem findIdx_map_eq {α β : Type} (f : α → β) (p : β → Bool) :
    ∀ l : List α, (l.map f).findIdx p = l.findIdx (fun x => p (f x)) := by
  intro l
  induction l with
  | nil => simp
  | cons x l ih => simp [List.findIdx_cons, ih]

theorem findIdx_append_decomp {α : Type} (p : α → Bool) (s t : List α) (a : α)
    (hs : ∀ x ∈ s, p x = false) (ha : p a = true) :
    (s ++ a :: t).findIdx p = s.length := by
  induction s with
  | nil => simp [List.findIdx_cons, ha]
  | cons x s' ih =>
    simp only [List.cons_append, List.findIdx_cons, hs x (List.mem_cons_self x s'),
      cond_false, List.length_cons]
    rw [ih (fun y hy => hs y (List.mem_cons_of_mem x hy))]

theorem nmAt_inj {rs : List (Res χ δ ε)} (hnd : (idsOf rs).Nodup)
    {x y : Fin rs.length} (h : nmAt rs x = nmAt rs y) : x = y := by
  have hxl : (x : Nat) < (idsOf rs).length := by rw [idsOf_length]; exact x.isLt
  have hyl : (y : Nat) < (idsOf rs).length := by rw [idsOf_length]; exact y.isLt
  have hx : (idsOf rs)[(x : Nat)] = (idsOf rs)[(y : Nat)] := by
    rw [idsOf_getElem x.isLt hxl, idsOf_getElem y.isLt hyl]
    simpa [nmAt, List.get_eq_getElem] using h
  exact Fin.ext ((List.Nodup.getElem_inj_iff hnd).mp hx)

theorem filterMap_length_allSome {α β : Type} (f : α → Option β) :
    ∀ l : List α, (∀ x ∈ l, (f x).isSome) → (l.filterMap f).length = l.length := by
  intro l
  induction l with
  | nil => intro _; simp
  | cons x l ih =>
    intro h
    obtain ⟨b, hb⟩ := Option.isSome_iff_exists.mp (h x (List.mem_cons_self x l))
    rw [List.filterMap_cons, hb]
    simp [ih (fun y hy => h y (List.mem_cons_of_mem x hy))]

theorem filterMap_allSome_getElem {α β : Type} (f : α → Option β) :
    ∀ (l : List α) (k : Nat), (∀ x ∈ l, (f x).isSome) → ∀ (hk : k < l.length)
      (hk2 : k < (l.filterMap f).length),
      f l[k] = some (l.filterMap f)[k] := by
  intro l
  induction l with
  | nil => intro k _ hk; exact absurd hk (by simp)
  | cons x l ih =>
    intro k h hk hk2
    obtain ⟨b, hb⟩ := Option.isSome_iff_exists.mp (h x (List.mem_cons_self x l))
    cases k with
    | zero => simp [List.filterMap_cons, hb]
    | succ k' =>
      have hk' : k' < l.length := by simpa using hk
      have hk2' : k' < (l.filterMap f).length := by
        rw [filterMap_length_allSome f l (fun y hy => h y (List.mem_cons_of_mem x hy))]
        exact hk'
      have := ih k' (fun y hy => h y (List.mem_cons_of_mem x hy)) hk' hk2'
      rw [List.getElem_cons_succ]
      rw [this]
      congr 1
      have hfm : (x :: l).filterMap f = b :: l.filterMap f := by
        rw [List.filterMap_cons, hb]
      simp only [hfm, List.getElem_cons_succ]

theorem entryAt_fst {rs : List (Res χ δ ε)} {ix : Fin rs.length} {p : String × Op χ δ}
    (h : entryAt rs ix = some p) : p.1 = nmAt rs ix := by
  unfold entryAt at h
  cases hfr : findRes rs (nmAt rs ix) with
  | none => rw [hfr] at h; simp at h
  | some r =>
    rw [hfr] at h
    cases hrd : r.read with
    | error e => simp only [hrd] at h; simp at h
    | ok c =>
      simp only [hrd] at h
      cases hpl : r.plan c with
      | error e => simp only [hpl] at h; simp at h
      | ok op =>
        simp only [hpl, Option.some.injEq] at h
        rw [← h]

theorem filterMap_entry_fst {rs : List (Res χ δ ε)} :
    ∀ l : List (Fin rs.length), (∀ ix ∈ l, (entryAt rs ix).isSome) →
      (l.filterMap (entryAt rs)).map Prod.fst = l.map (nmAt rs) := by
  intro l
  induction l with
  | nil => intro _; simp
  | cons ix l ih =>
    intro h
    obtain ⟨p, hp⟩ := Option.isSome_iff_exists.mp (h ix (List.mem_cons_self ix l))
    rw [List.filterMap_cons, hp]
    simp only [List.map_cons]
    rw [ih (fun y hy => h y (List.mem_cons_of_mem ix hy)), entryAt_fst hp]

/-! ## Unknown dependencies are dropped (ground work for C6) -/

theorem idsOf_restrictKnown (rs : List (Res χ δ ε)) :
    idsOf (restrictKnown rs) = idsOf rs := by
  unfold idsOf restrictKnown
  rw [List.map_map]
  rfl

theorem idIndex_none_of_not_mem {l : List String} {d : String} (h : d ∉ l) :
    idIndex l d = none := by
  unfold idIndex
  cases hf : l.enum.reverse.find? (fun p => p.2 == d) with
  | none => rfl
  | some p =>
    exfalso
    have hp1 : p ∈ l.enum.reverse := List.mem_of_find?_eq_some hf
    rw [List.mem_reverse, List.mem_enum_iff_getElem?] at hp1
    obtain ⟨hlt, hget⟩ := List.getElem?_eq_some.mp hp1
    have hp2 : p.2 = d := by
      have := List.find?_some hf
      rwa [beq_iff_eq] at this
    exact h (hp2 ▸ hget ▸ List.getElem_mem hlt)

theorem filterMap_filter_of_none {α β : Type} (p : α → Bool) (f : α → Option β)
    (h : ∀ x, p x = false → f x = none) :
    ∀ l : List α, (l.filter p).filterMap f = l.filterMap f := by
  intro l
  induction l with
  | nil => simp
  | cons x l ih =>
    cases hp : p x with
    | true => rw [List.filter_cons_of_pos hp, List.filterMap_cons, List.filterMap_cons, ih]
    | false =>
      rw [List.filter_cons_of_neg (by simp [hp]), List.filterMap_cons, h x hp, ih]

/-- Pre-filtering every dependency set to the known identifiers leaves
the edge list unchanged: unknown identifiers never produce edges. -/
theorem edgeList_restrictKnown (rs : List (Res χ δ ε)) :
    edgeList (restrictKnown rs) = edgeList rs := by
  unfold edgeList
  rw [idsOf_restrictKnown]
  unfold restrictKnown
  rw [List.enum_map, List.flatMap_map]
  refine List.flatMap_congr ?_
  rintro ⟨j, r⟩ hmem
  simp only [Prod.map_apply, id_eq]
  cases hidx : idIndex (idsOf rs) r.id with
  | none => rfl
  | some t =>
    refine filterMap_filter_of_none _ _ ?_ r.deps
    intro d hd
    have hdnot : d ∉ idsOf rs := by
      intro hc
      rw [decide_eq_false_iff_not] at hd
      exact hd hc
    rw [idIndex_none_of_not_mem hdnot]
    rfl

/-! ## The scheduler on an edgeless graph (ground work for C7) -/

theorem innerLoop_no_edges {n : Nat} {adj : Fin n → List (Fin n)} (h : ∀ v, adj v = [])
    (m : Nat) (l : List (Fin n)) (i : Fin n) (hi : i ∉ l) :
    innerLoop adj (m + 3) ⟨l, l, [i]⟩ = some (.ok ⟨l ++ [i], l ++ [i], []⟩) := by
  simp [innerLoop, h, hi]

theorem outerLoop_no_edges {n : Nat} {adj : Fin n → List (Fin n)} (h : ∀ v, adj v = [])
    (m : Nat) :
    ∀ (roots l : List (Fin n)), roots.Nodup → (∀ i ∈ roots, i ∉ l) →
      outerLoop adj (m + 3) roots ⟨l, l, []⟩ =
        some (.ok ⟨l ++ roots, l ++ roots, []⟩) := by
  intro roots
  induction roots with
  | nil => intro l _ _; simp [outerLoop]
  | cons i rest ih =>
    intro l hnd hfresh
    have hi : i ∉ l := hfresh i (List.mem_cons_self i rest)
    have hfresh' : ∀ j ∈ rest, j ∉ l ++ [i] := by
      intro j hj hc
      rcases List.mem_append.mp hc with hc' | hc'
      · exact hfresh j (List.mem_cons_of_mem i hj) hc'
      · rw [List.mem_singleton] at hc'
        exact (List.nodup_cons.mp hnd).1 (hc' ▸ hj)
    simp only [outerLoop, if_neg hi]
    rw [show (⟨l, l, i :: (⟨l, l, []⟩ : St n).stack⟩ : St n) = ⟨l, l, [i]⟩ from rfl]
    rw [innerLoop_no_edges h m l i hi]
    show outerLoop adj (m + 3) rest ⟨l ++ [i], l ++ [i], []⟩ =
      some (.ok ⟨l ++ i :: rest, l ++ i :: rest, []⟩)
    rw [ih (l ++ [i]) (List.nodup_cons.mp hnd).2 hfresh']
    simp [List.append_assoc]

theorem toposort_no_edges {n : Nat} (adj : Fin n → List (Fin n)) (h : ∀ v, adj v = []) :
    toposort n adj = .ok (List.finRange n).reverse := by
  cases n with
  | zero => rfl
  | succ k =>
    unfold toposort
    have htf : topoFuel (k + 1) adj = k + 3 := by
      simp [topoFuel, h]
      omega
    rw [htf]
    rw [outerLoop_no_edges h k (List.finRange (k + 1)) [] (List.nodup_finRange _)
      (fun i _ => List.not_mem_nil i)]
    simp

/-! ## Claim-level helpers -/

theorem not_cyclic_of_no_edges {n : Nat} {adj : Fin n → List (Fin n)}
    (h : ∀ a b : Fin n, ¬ GStep adj a b) : ¬ GCyclic adj := by
  have hgen : ∀ x y : Fin n, ¬ Relation.TransGen (GStep adj) x y := by
    intro x y hxy
    induction hxy with
    | single hstep => exact h _ _ hstep
    | tail _ hstep _ => exact h _ _ hstep
  rintro ⟨v, hv⟩
  exact hgen v v hv

theorem adjOf_of_edgeList_nil {rs : List (Res χ δ ε)} (h : edgeList rs = [])
    (v : Fin rs.length) : adjOf rs v = [] := by
  unfold adjOf
  rw [h]
  rfl

theorem not_cyclicDeps_of_edgeList_nil {rs : List (Res χ δ ε)}
    (h : edgeList rs = []) : ¬ CyclicDeps rs := by
  refine not_cyclic_of_no_edges ?_
  intro a b hstep
  rw [GStep, adjOf_of_edgeList_nil h] at hstep
  exact absurd hstep (List.not_mem_nil b)

theorem entryAt_isSome {rs : List (Res χ δ ε)}
    (hrp : ∀ r ∈ rs, ∃ c op, r.read = .ok c ∧ r.plan c = .ok op)
    (ix : Fin rs.length) : (entryAt rs ix).isSome := by
  have hfs : (findRes rs (nmAt rs ix)).isSome := by
    rw [findRes, List.find?_isSome]
    exact ⟨rs.get ix, List.get_mem rs ix.1 ix.2, by simp [nmAt]⟩
  obtain ⟨r, hr⟩ := Option.isSome_iff_exists.mp hfs
  obtain ⟨c, op, hrd, hpl⟩ := hrp r (List.mem_of_find?_eq_some hr)
  unfold entryAt
  simp only [hr, hrd, hpl]
  rfl

theorem entryAt_some_spec {rs : List (Res χ δ ε)} {ix : Fin rs.length}
    {p : String × Op χ δ} (h : entryAt rs ix = some p) :
    ∃ r c, findRes rs (nmAt rs ix) = some r ∧ r.read = .ok c ∧
      r.plan c = .ok p.2 ∧ p.1 = nmAt rs ix ∧
      evsAt rs ix = [.rd (nmAt rs ix), .pl (nmAt rs ix) c] := by
  unfold entryAt at h
  cases hfr : findRes rs (nmAt rs ix) with
  | none => rw [hfr] at h; simp at h
  | some r =>
    rw [hfr] at h
    cases hrd : r.read with
    | error e => simp only [hrd] at h; simp at h
    | ok c =>
      simp only [hrd] at h
      cases hpl : r.plan c with
      | error e => simp only [hpl] at h; simp at h
      | ok op =>
        simp only [hpl, Option.some.injEq] at h
        subst h
        exact ⟨r, c, rfl, hrd, hpl, rfl, by simp only [evsAt, hfr, hrd]⟩

theorem findRes_isSome_of_entryAt {rs : List (Res χ δ ε)} {ix : Fin rs.length}
    (h : (entryAt rs ix).isSome) : (findRes rs (nmAt rs ix)).isSome := by
  obtain ⟨p, hp⟩ := Option.isSome_iff_exists.mp h
  obtain ⟨r, c, hfr, -⟩ := entryAt_some_spec hp
  rw [hfr]
  rfl

theorem readIds_append (a b : List (Ev χ)) :
    readIds (a ++ b) = readIds a ++ readIds b := by
  simp [readIds]

theorem readIds_evsAt {rs : List (Res χ δ ε)} {ix : Fin rs.length}
    (h : (findRes rs (nmAt rs ix)).isSome) :
    readIds (evsAt rs ix) = [nmAt rs ix] := by
  obtain ⟨r, hr⟩ := Option.isSome_iff_exists.mp h
  unfold evsAt
  simp only [hr]
  cases hread : r.read with
  | error e => rfl
  | ok c => rfl

theorem readIds_flatMap_evsAt {rs : List (Res χ δ ε)} :
    ∀ l : List (Fin rs.length),
      (∀ j ∈ l, (findRes rs (nmAt rs j)).isSome) →
      readIds (l.flatMap (evsAt rs)) = l.map (nmAt rs) := by
  intro l
  induction l with
  | nil => intro _; simp [readIds]
  | cons j l ih =>
    intro h
    rw [List.flatMap_cons, readIds_append,
      readIds_evsAt (h j (List.mem_cons_self j l)),
      ih (fun k hk => h k (List.mem_cons_of_mem j hk))]
    rfl

theorem pairPos_lt_of_after {rs : List (Res χ δ ε)} (hnd : (idsOf rs).Nodup)
    {ord : List (Fin rs.length)} (hordnd : ord.Nodup)
    {out : List (String × Op χ δ)} (hfst : out.map Prod.fst = ord.map (nmAt rs))
    {f j : Fin rs.length} {s t : List (Fin rs.length)}
    (hdec : ord = s ++ f :: t) (hjt : j ∈ t) :
    pairPos out (nmAt rs f) < pairPos out (nmAt rs j) := by
  have hpos : ∀ a : Fin rs.length, pairPos out (nmAt rs a) =
      ord.findIdx (fun x => nmAt rs x == nmAt rs a) := by
    intro a
    unfold pairPos
    rw [← findIdx_map_eq Prod.fst (fun z => z == nmAt rs a) out, hfst,
      findIdx_map_eq]
  obtain ⟨u, w, huw⟩ := List.append_of_mem hjt
  have hdec2 : ord = (s ++ f :: u) ++ j :: w := by
    rw [hdec, huw]
    simp
  have hnd1 : (s ++ f :: t).Nodup := by rw [← hdec]; exact hordnd
  have hnd2 : ((s ++ f :: u) ++ j :: w).Nodup := by rw [← hdec2]; exact hordnd
  have hfs : ∀ x ∈ s, (nmAt rs x == nmAt rs f) = false := by
    intro x hx
    have hxne : x ≠ f := by
      intro hc
      subst hc
      exact (List.disjoint_of_nodup_append hnd1) hx (List.mem_cons_self x t)
    simp only [beq_eq_false_iff_ne, ne_eq]
    exact fun hc => hxne (nmAt_inj hnd hc)
  have hjs : ∀ x ∈ s ++ f :: u, (nmAt rs x == nmAt rs j) = false := by
    intro x hx
    have hxne : x ≠ j := by
      intro hc
      subst hc
      exact (List.disjoint_of_nodup_append hnd2) hx (List.mem_cons_self x w)
    simp only [beq_eq_false_iff_ne, ne_eq]
    exact fun hc => hxne (nmAt_inj hnd hc)
  rw [hpos f, hpos j, hdec, findIdx_append_decomp _ s _ f hfs (by simp), ← hdec, hdec2,
    findIdx_append_decomp _ _ _ j hjs (by simp)]
  simp only [List.length_append, List.length_cons]
  omega

/-! ## The claims -/

/-- C2: for every collection whose known-dependency graph contains a
cycle, `plan_all` fails with the `Cycle` error, returns no order, and
performs no `read` or `plan` call (the event trace is empty). -/
theorem claim_c2_cycle_detected (rs : List (Res χ δ ε)) (h : CyclicDeps rs) :
    planAll rs = (.err .cycle, []) := by
  unfold planAll
  cases hs : schedule rs with
  | error u => rfl
  | ok ord =>
    exfalso
    unfold schedule at hs
    exact toposort_ok_acyclic hs h

/-- C3: if, along the computed order, every resource before some node
succeeds and that node's `read` or `plan` fails, `plan_all` returns the
error immediately — no plan list is returned — and `read` is invoked
exactly on the resources up to and including the failing one. -/
theorem claim_c3_plan_fail_fast (rs : List (Res χ δ ε))
    (ord pre rest : List (Fin rs.length)) (ix : Fin rs.length) (e : ε)
    (hsch : schedule rs = .ok ord) (hord : ord = pre ++ ix :: rest)
    (hpre : ∀ j ∈ pre, (entryAt rs j).isSome)
    (hfail : FailEntry rs ix e) :
    planAll rs = (.err (.res e), pre.flatMap (evsAt rs) ++ evsAt rs ix) ∧
      readIds (pre.flatMap (evsAt rs) ++ evsAt rs ix) =
        pre.map (nmAt rs) ++ [nmAt rs ix] := by
  constructor
  · unfold planAll
    rw [hsch]
    show planLoop rs ord [] [] = _
    rw [hord, planLoop_fail hfail pre rest [] [] hpre]
    simp
  · rw [readIds_append,
      readIds_flatMap_evsAt pre (fun j hj => findRes_isSome_of_entryAt (hpre j hj))]
    obtain ⟨r, hfr, -⟩ := hfail
    rw [readIds_evsAt (by rw [hfr]; rfl)]

/-- C4: if every plan entry before some entry applies successfully and
that entry's `apply` fails, `apply_all` returns the error immediately
and `apply` is invoked exactly on the entries up to and including the
failing one — never on a later entry. -/
theorem claim_c4_apply_fail_fast (rs : List (Res χ δ ε))
    (pre rest : List (String × Op χ δ)) (p : String × Op χ δ)
    (r : Res χ δ ε) (e : ε)
    (hpre : ∀ q ∈ pre, OkApply rs q)
    (hfr : findRes rs p.1 = some r) (hfail : r.apply p.2 = .error e) :
    applyAll rs (pre ++ p :: rest) = (.err e, pre.map Prod.fst ++ [p.1]) := by
  unfold applyAll
  rw [applyLoop_fail hfr hfail pre rest [] hpre]
  simp

/-- C5, counterexample: two runs that fail at different resources
return exactly the same value, so the value returned by `apply_all`
identifies neither the failing resource nor the earlier successes; it
is only the resource's own error, verbatim. -/
theorem claim_c5_counterexample :
    (applyAll rsApplyFailA [("a", Op.noop)]).1 =
      (applyAll rsApplyFailB [("b", Op.noop)]).1 ∧
    (applyAll rsApplyFailA [("a", Op.noop)]).1 = RunResult.err 7 ∧
    ("a" : String) ≠ "b" :=
  ⟨rfl, rfl, by decide⟩

/-- C5, amended: `apply_all` stops at the first failing entry and
returns that resource's underlying error verbatim; the returned value
attaches no identifier and no record of the earlier successes (those
are only visible in the sequence of performed `apply` calls). -/
theorem claim_c5_error_verbatim (rs : List (Res χ δ ε))
    (pre rest : List (String × Op χ δ)) (p : String × Op χ δ)
    (r : Res χ δ ε) (e : ε)
    (hpre : ∀ q ∈ pre, OkApply rs q)
    (hfr : findRes rs p.1 = some r) (hfail : r.apply p.2 = .error e) :
    (applyAll rs (pre ++ p :: rest)).1 = .err e := by
  unfold applyAll
  rw [applyLoop_fail hfr hfail pre rest [] hpre]

/-- C9, counterexample: a plan containing an identifier that matches no
handle need not make `apply_all` panic — an earlier entry whose `apply`
fails makes it return that error before the unchecked unwrap is
reached. -/
theorem claim_c9_counterexample :
    findRes rsApplyFailA "zzz" = none ∧
    applyAll rsApplyFailA [("a", Op.noop), ("zzz", Op.noop)] = (.err 7, ["a"]) :=
  ⟨rfl, rfl⟩

/-- C9, amended: when every entry before the first unknown-identifier
entry applies successfully, `apply_all` panics at that entry (the
`unwrap` on the failed lookup) instead of returning an error; the
unwrap is unreachable only when every plan identifier occurs among the
handles. -/
theorem claim_c9_unwrap_panics (rs : List (Res χ δ ε))
    (pre rest : List (String × Op χ δ)) (p : String × Op χ δ)
    (hpre : ∀ q ∈ pre, OkApply rs q)
    (hfr : findRes rs p.1 = none) :
    applyAll rs (pre ++ p :: rest) = (.panicked, pre.map Prod.fst) := by
  unfold applyAll
  rw [applyLoop_panic hfr pre rest [] hpre]
  simp

/-- C10: whenever `plan_all` succeeds the plan has exactly one pair per
input handle, and with duplicate-free identifiers the plan's
identifiers are a permutation of the input identifiers (each appears
exactly once). -/
theorem claim_c10_one_pair_per_handle (rs : List (Res χ δ ε))
    (out : List (String × Op χ δ)) (t : List (Ev χ))
    (h : planAll rs = (.ok out, t)) :
    out.length = rs.length ∧
      ((idsOf rs).Nodup → (out.map Prod.fst).Perm (idsOf rs)) := by
  unfold planAll at h
  cases hs : schedule rs with
  | error u => rw [hs] at h; simp at h
  | ok ord =>
    rw [hs] at h
    obtain ⟨hall, hout, htr⟩ := planLoop_ok_inv ord [] out [] t h
    unfold schedule at hs
    obtain ⟨hnd, hcom, hlen, hsort⟩ := toposort_ok_spec hs
    constructor
    · rw [hout]
      simp only [List.nil_append]
      rw [filterMap_length_allSome _ ord hall, hlen]
    · intro hidnd
      rw [hout]
      simp only [List.nil_append]
      rw [filterMap_entry_fst ord hall]
      have hperm : ord.Perm (List.finRange rs.length) := by
        refine List.perm_of_nodup_nodup_toFinset_eq hnd (List.nodup_finRange _) ?_
        ext v
        simp [hcom v, List.mem_finRange]
      refine (hperm.map (nmAt rs)).trans ?_
      rw [show (List.finRange rs.length).map (nmAt rs) = idsOf rs from ?_]
      · rw [show nmAt rs = (fun ix => Res.id (rs.get ix)) from rfl]
        rw [show (List.finRange rs.length).map (fun ix => Res.id (rs.get ix)) =
          ((List.finRange rs.length).map rs.get).map Res.id from by rw [List.map_map]; rfl]
        rw [List.finRange_map_get]
        rfl

/-- C1: for a collection with duplicate-free identifiers (the data
model requires identifiers unique within a run) whose known-only
dependency graph is acyclic, and whose `read` and `plan` calls all
succeed, `plan_all` returns a plan in which every resource's pair
appears strictly after the pairs of all resources in its known-only
dependency set. -/
theorem claim_c1_dependency_order (rs : List (Res χ δ ε))
    (hnd : (idsOf rs).Nodup) (hacyc : ¬ CyclicDeps rs)
    (hrp : ∀ r ∈ rs, ∃ c op, r.read = .ok c ∧ r.plan c = .ok op) :
    ∃ out t, planAll rs = (.ok out, t) ∧
      ∀ r ∈ rs, ∀ d ∈ r.deps, (∃ r' ∈ rs, r'.id = d) →
        pairPos out d < pairPos out r.id := by
  obtain ⟨ord, hs⟩ := toposort_ok_of_acyclic hacyc
  have hsch : schedule rs = .ok ord := hs
  have hall : ∀ ix ∈ ord, (entryAt rs ix).isSome := fun ix _ => entryAt_isSome hrp ix
  refine ⟨ord.filterMap (entryAt rs), ord.flatMap (evsAt rs), ?_, ?_⟩
  · unfold planAll
    rw [hsch]
    show planLoop rs ord [] [] = _
    rw [planLoop_ok ord [] [] hall]
    simp
  · intro r hr d hd hknown
    obtain ⟨j, hj⟩ := List.mem_iff_get.mp hr
    obtain ⟨r', hr', hrid⟩ := hknown
    obtain ⟨f, hf⟩ := List.mem_iff_get.mp hr'
    have hfd : rs[(f : Nat)].id = d := by
      rw [← List.get_eq_getElem, hf, hrid]
    have hstep : GStep (adjOf rs) f j :=
      gstep_of_dep hnd (by rw [hj]; exact hd) hfd
    obtain ⟨hndord, hcom, hlen, hsort⟩ := toposort_ok_spec hs
    obtain ⟨s, t, hdec, hjt⟩ :=
      transGen_after hcom hsort f j (Relation.TransGen.single hstep)
    have hfst : (ord.filterMap (entryAt rs)).map Prod.fst = ord.map (nmAt rs) :=
      filterMap_entry_fst ord hall
    have hlt := pairPos_lt_of_after hnd hndord hfst hdec hjt
    have hnf : nmAt rs f = d := by rw [nmAt, hf, hrid]
    have hnj : nmAt rs j = r.id := by rw [nmAt, hj]
    rw [hnf, hnj] at hlt
    exact hlt

/-- C6: unknown dependency identifiers never produce an edge — the
built edge list equals the one built after pre-filtering every
dependency set to the known identifiers — and scheduling succeeds
whenever the remaining known edges are acyclic, so an unknown
dependency reference is not an error. -/
theorem claim_c6_unknown_dep_dropped (rs : List (Res χ δ ε))
    (_hud : ∃ r ∈ rs, ∃ d ∈ r.deps, d ∉ idsOf rs)
    (hacyc : ¬ CyclicDeps rs) :
    edgeList (restrictKnown rs) = edgeList rs ∧
      ∃ ord, schedule rs = .ok ord :=
  ⟨edgeList_restrictKnown rs, toposort_ok_of_acyclic hacyc⟩

/-- C7, counterexample: two independent resources are planned in
reverse input collection order, not input order — the DFS scheduler
takes the reverse finishing order, so input order is *not* the
tiebreaker the spec states. -/
theorem claim_c7_counterexample :
    (planAll rsPair).1 = .ok [("b", Op.noop), ("a", Op.noop)] ∧
    [("b", Op.noop), ("a", Op.noop)] ≠
      [("a", (Op.noop : Op Nat Nat)), ("b", Op.noop)] :=
  ⟨rfl, by decide⟩

/-- C7, amended: the scheduler is a deterministic function of the input
collection (two runs over the same collection give the same plan), but
ties are broken in *reverse* input order: when no known dependencies
exist at all, the plan lists the resources in reverse input collection
order. -/
theorem claim_c7_reverse_tiebreak (rs : List (Res χ δ ε))
    (hedge : edgeList rs = [])
    (hrp : ∀ r ∈ rs, ∃ c op, r.read = .ok c ∧ r.plan c = .ok op) :
    ∃ out t, planAll rs = (.ok out, t) ∧
      out.map Prod.fst = (idsOf rs).reverse := by
  have hadj : ∀ v, adjOf rs v = [] := adjOf_of_edgeList_nil hedge
  have hsch : schedule rs = .ok (List.finRange rs.length).reverse :=
    toposort_no_edges _ hadj
  have hall : ∀ ix ∈ (List.finRange rs.length).reverse, (entryAt rs ix).isSome :=
    fun ix _ => entryAt_isSome hrp ix
  refine ⟨(List.finRange rs.length).reverse.filterMap (entryAt rs),
    (List.finRange rs.length).reverse.flatMap (evsAt rs), ?_, ?_⟩
  · unfold planAll
    rw [hsch]
    show planLoop rs (List.finRange rs.length).reverse [] [] = _
    rw [planLoop_ok _ [] [] hall]
    simp
  · rw [filterMap_entry_fst _ hall, List.map_reverse]
    congr 1
    rw [show nmAt rs = (fun ix => Res.id (rs.get ix)) from rfl]
    rw [show (List.finRange rs.length).map (fun ix => Res.id (rs.get ix)) =
      ((List.finRange rs.length).map rs.get).map Res.id from by rw [List.map_map]; rfl]
    rw [List.finRange_map_get]
    rfl

/-- C8: whenever `plan_all` succeeds, each visited resource was handled
by invoking `read()` first, then `plan` with exactly the observed state
`read` returned; the output pair carries that resource's identifier and
the operation `plan` returned, and the output ordering (and the event
trace) follows the scheduler's topological order exactly. -/
theorem claim_c8_read_then_plan (rs : List (Res χ δ ε))
    (out : List (String × Op χ δ)) (t : List (Ev χ))
    (h : planAll rs = (.ok out, t)) :
    ∃ ord, schedule rs = .ok ord ∧ out.length = ord.length ∧
      t = ord.flatMap (evsAt rs) ∧
      ∀ (k : Nat) (hk : k < ord.length) (hk2 : k < out.length),
        ∃ r c, findRes rs (nmAt rs ord[k]) = some r ∧
          r.read = .ok c ∧ r.plan c = .ok out[k].2 ∧
          out[k].1 = nmAt rs ord[k] ∧
          evsAt rs ord[k] =
            [.rd (nmAt rs ord[k]), .pl (nmAt rs ord[k]) c] := by
  unfold planAll at h
  cases hs : schedule rs with
  | error u => rw [hs] at h; simp at h
  | ok ord =>
    rw [hs] at h
    obtain ⟨hall, hout, htr⟩ := planLoop_ok_inv ord [] out [] t h
    simp only [List.nil_append] at hout htr
    refine ⟨ord, rfl, ?_, htr, ?_⟩
    · rw [hout, filterMap_length_allSome _ ord hall]
    · intro k hk hk2
      have hk2' : k < (ord.filterMap (entryAt rs)).length := by
        rw [filterMap_length_allSome _ ord hall]
        exact hk
      have hE : entryAt rs ord[k] = some (ord.filterMap (entryAt rs))[k] :=
        filterMap_allSome_getElem _ ord k hall hk hk2'
      have hget : out[k] = (ord.filterMap (entryAt rs))[k] := by
        congr 1
      rw [hget]
      exact entryAt_some_spec hE

/-! ## Witnesses: the claim theorems instantiated at concrete inputs -/

/-- C2 witness: a two-cycle `a ↔ b`. -/
theorem claim_c2_witness :
    CyclicDeps rsCycle ∧ planAll rsCycle = (.err .cycle, []) := by
  have h01 : GStep (adjOf rsCycle) ⟨0, by decide⟩ ⟨1, by decide⟩ := by
    show (⟨1, by decide⟩ : Fin rsCycle.length) ∈ adjOf rsCycle ⟨0, by decide⟩
    decide
  have h10 : GStep (adjOf rsCycle) ⟨1, by decide⟩ ⟨0, by decide⟩ := by
    show (⟨0, by decide⟩ : Fin rsCycle.length) ∈ adjOf rsCycle ⟨1, by decide⟩
    decide
  have hcyc : CyclicDeps rsCycle :=
    ⟨⟨0, by decide⟩, Relation.TransGen.head h01 (Relation.TransGen.single h10)⟩
  exact ⟨hcyc, claim_c2_cycle_detected rsCycle hcyc⟩

/-- C3 witness: a single resource whose `read` fails with error `5`. -/
theorem claim_c3_witness :
    planAll rsReadFail = (.err (.res 5), [Ev.rd "a"]) ∧
      readIds ([Ev.rd "a"] : List (Ev Nat)) = ["a"] := by
  have h0 : (0 : Nat) < rsReadFail.length := by decide
  have hres := claim_c3_plan_fail_fast rsReadFail [⟨0, h0⟩] [] [] ⟨0, h0⟩ 5 rfl rfl
    (fun j hj => absurd hj (List.not_mem_nil j))
    ⟨wResReadFail "a" 5, rfl, Or.inl rfl⟩
  exact ⟨hres.1, hres.2⟩

/-- C4 witness: the first entry's `apply` fails with error `7`; the
later entry `x` is never attempted. -/
theorem claim_c4_witness :
    applyAll rsApplyFailA [("a", Op.noop), ("x", Op.noop)] = (.err 7, ["a"]) :=
  claim_c4_apply_fail_fast rsApplyFailA [] [("x", Op.noop)] ("a", Op.noop)
    (wResApplyFail "a" 7) 7 (fun q hq => absurd hq (List.not_mem_nil q)) rfl rfl

/-- C5 witness (amended claim): the returned value is exactly the
underlying error. -/
theorem claim_c5_witness :
    (applyAll rsApplyFailA [("a", Op.noop)]).1 = .err 7 :=
  claim_c5_error_verbatim rsApplyFailA [] [] ("a", Op.noop) (wResApplyFail "a" 7) 7
    (fun q hq => absurd hq (List.not_mem_nil q)) rfl rfl

/-- C9 witness (amended claim): a successful entry followed by an
unknown identifier makes `apply_all` panic. -/
theorem claim_c9_witness :
    applyAll rsPair [("a", Op.noop), ("zzz", Op.noop)] = (.panicked, ["a"]) := by
  have hpre : ∀ q ∈ [(("a" : String), (Op.noop : Op Nat Nat))], OkApply rsPair q := by
    intro q hq
    rw [List.mem_singleton] at hq
    subst hq
    exact ⟨wRes "a" [], rfl, rfl⟩
  exact claim_c9_unwrap_panics rsPair [("a", Op.noop)] [] ("zzz", Op.noop) hpre rfl

/-- C10 witness. -/
theorem claim_c10_witness :
    ([("b", Op.noop), ("a", Op.noop)] : List (String × Op Nat Nat)).length =
      rsPair.length ∧
    (([("b", Op.noop), ("a", Op.noop)] : List (String × Op Nat Nat)).map
      Prod.fst).Perm (idsOf rsPair) := by
  have h := claim_c10_one_pair_per_handle rsPair [("b", Op.noop), ("a", Op.noop)]
    [Ev.rd "b", Ev.pl "b" none, Ev.rd "a", Ev.pl "a" none] rfl
  exact ⟨h.1, h.2 (by decide)⟩

/-- C1 witness. -/
theorem claim_c1_witness :
    ∃ out t, planAll rsPair = (.ok out, t) ∧
      ∀ r ∈ rsPair, ∀ d ∈ r.deps, (∃ r' ∈ rsPair, r'.id = d) →
        pairPos out d < pairPos out r.id := by
  refine claim_c1_dependency_order rsPair (by decide)
    (not_cyclicDeps_of_edgeList_nil rfl) ?_
  intro r hr
  have hcases : r = wRes "a" [] ∨ r = wRes "b" [] := by
    simpa [rsPair] using hr
  rcases hcases with rfl | rfl
  · exact ⟨none, Op.noop, rfl, rfl⟩
  · exact ⟨none, Op.noop, rfl, rfl⟩

/-- C6 witness: a resource declaring the unknown dependency `ghost`. -/
theorem claim_c6_witness :
    edgeList (restrictKnown rsGhost) = edgeList rsGhost ∧
      ∃ ord, schedule rsGhost = .ok ord := by
  refine claim_c6_unknown_dep_dropped rsGhost ?_
    (not_cyclicDeps_of_edgeList_nil rfl)
  exact ⟨wRes "a" ["ghost"], List.mem_cons_self _ _, "ghost",
    List.mem_cons_self _ _, by decide⟩

/-- C7 witness (amended claim): with no dependencies the plan is the
reverse of the input collection order. -/
theorem claim_c7_witness :
    ∃ out t, planAll rsPair = (.ok out, t) ∧
      out.map Prod.fst = (idsOf rsPair).reverse := by
  refine claim_c7_reverse_tiebreak rsPair rfl ?_
  intro r hr
  have hcases : r = wRes "a" [] ∨ r = wRes "b" [] := by
    simpa [rsPair] using hr
  rcases hcases with rfl | rfl
  · exact ⟨none, Op.noop, rfl, rfl⟩
  · exact ⟨none, Op.noop, rfl, rfl⟩

/-- C8 witness. -/
theorem claim_c8_witness :
    ∃ ord, schedule rsPair = .ok ord ∧
      ([("b", Op.noop), ("a", Op.noop)] : List (String × Op Nat Nat)).length =
        ord.length ∧
      [Ev.rd "b", Ev.pl "b" none, Ev.rd "a", Ev.pl "a" none] =
        ord.flatMap (evsAt rsPair) ∧
      ∀ (k : Nat) (hk : k < ord.length)
        (hk2 : k < ([("b", Op.noop), ("a", Op.noop)] :
          List (String × Op Nat Nat)).length),
        ∃ r c, findRes rsPair (nmAt rsPair ord[k]) = some r ∧
          r.read = .ok c ∧
          r.plan c = .ok ([("b", Op.noop), ("a", Op.noop)] :
            List (String × Op Nat Nat))[k].2 ∧
          ([("b", Op.noop), ("a", Op.noop)] :
            List (String × Op Nat Nat))[k].1 = nmAt rsPair ord[k] ∧
          evsAt rsPair ord[k] =
            [.rd (nmAt rsPair ord[k]), .pl (nmAt rsPair ord[k]) c] :=
  claim_c8_read_then_plan rsPair [("b", Op.noop), ("a", Op.noop)]
    [Ev.rd "b", Ev.pl "b" none, Ev.rd "a", Ev.pl "a" none] rfl
